import Mathlib

/-!
Verification of `organize_mihon_images.py` (Mihon-Lib-organiser).

This file gives a shallow embedding of the script's data model and
operations — the name sanitizer, filename stem/suffix splitting, chapter
naming and partitioning, the collision-resolution loop, recursive image
enumeration, and the organizing orchestration over a small filesystem
model — and proves the specification's claims about them.
-/

namespace MihonOrganizer

/-! ### Characters and string comparison

Python compares strings lexicographically by code point.  `charListLe`
is that order on char lists, working through `Char.toNat` (the code
point). -/

def charListLe : List Char → List Char → Bool
  | [], _ => true
  | _ :: _, [] => false
  | a :: as, b :: bs =>
    if a.toNat = b.toNat then charListLe as bs else decide (a.toNat < b.toNat)

def strLe (a b : String) : Bool :=
  charListLe a.toList b.toList

/-! ### `get_safe_folder_name` (the name sanitizer)

Mirrors:
```
invalid_chars = r'[<>:"/\\|?*]'
safe_name = re.sub(invalid_chars, '_', name)
safe_name = safe_name.strip(' .')
if len(safe_name) > 100: safe_name = safe_name[:100]
```
-/

def invalidChars : List Char := ['<', '>', ':', '"', '/', '\\', '|', '?', '*']

def sanitizeChar (c : Char) : Char :=
  if c ∈ invalidChars then '_' else c

/-- Membership in the strip set of `.strip(' .')`: space and dot only. -/
def isSpaceOrDot (c : Char) : Bool :=
  c = ' ' || c = '.'

/-- Python's `s.strip(' .')`: drop the characters of the set from both ends. -/
def stripSpaceDot (s : String) : String :=
  String.mk ((((s.toList.dropWhile isSpaceOrDot).reverse).dropWhile isSpaceOrDot).reverse)

/-- Python's `s[:n]` (slice of the first `n` code points). -/
def strTake (s : String) (n : Nat) : String :=
  String.mk (s.toList.take n)

/-- Per-character replacement (`re.sub` with a character class replaces
each matching character 1:1). -/
def replaceInvalid (s : String) : String :=
  String.mk (s.toList.map sanitizeChar)

def get_safe_folder_name (name : String) : String :=
  let replaced := replaceInvalid name
  let stripped := stripSpaceDot replaced
  if stripped.length > 100 then strTake stripped 100 else stripped

/-- The char list of the sanitized-and-stripped (not yet truncated)
name; `stripSpaceDot (replaceInvalid s)` written with
`List.rdropWhile`. -/
def strippedList (s : String) : List Char :=
  List.rdropWhile isSpaceOrDot ((s.toList.map sanitizeChar).dropWhile isSpaceOrDot)

/-! ### `format_chapter_name`

Mirrors `f"Chapter {chapter_number:03d}"` for a nonnegative number:
the decimal digits, left-padded with zeros to width at least 3. -/

def format_chapter_name (n : Nat) : String :=
  "Chapter " ++ String.mk (List.replicate (3 - (Nat.repr n).length) '0') ++ Nat.repr n

/-! ### Stem / suffix splitting (Python `pathlib`)

`PurePath.suffix` is `name[i:]` where `i = name.rfind('.')` when
`0 < i < len(name) - 1`, and `''` otherwise; `stem` is the
corresponding front part (`name` itself when the suffix is empty). -/

/-- Index of the last occurrence of `c`, if any. -/
def lastIdxOf (c : Char) : List Char → Option Nat
  | [] => none
  | a :: as =>
    match lastIdxOf c as with
    | some j => some (j + 1)
    | none => if a = c then some 0 else none

def splitStemSuffix (s : String) : String × String :=
  let cs := s.toList
  match lastIdxOf '.' cs with
  | none => (s, "")
  | some i =>
    if 0 < i && i + 1 < cs.length then
      (String.mk (cs.take i), String.mk (cs.drop i))
    else (s, "")

def fileSuffix (s : String) : String := (splitStemSuffix s).2

/-! ### The collision-resolution loop

Mirrors the duplicate-name handling of `organize_images_into_chapters`
(and the identical loop in `organize_mihon_image_folders`):

```
counter = 1
original_name = image.name
while dest_path.exists():
    new_name = f"{stem}_{counter}{ext}"
    dest_path = chapter_path / new_name
    counter += 1
```

`candidateName name k` is the name tried when the counter reaches `k`
(`k = 0` is the original name).  The loop is unbounded in the source;
`resolveName` carries fuel, and returning `some` means the loop of the
source terminated with that name. -/

def candidateName (name : String) (k : Nat) : String :=
  if k = 0 then name
  else (splitStemSuffix name).1 ++ "_" ++ Nat.repr k ++ (splitStemSuffix name).2

def resolveNameAux (occupied : List String) (name : String) : Nat → Nat → Option String
  | _, 0 => none
  | k, fuel + 1 =>
    let c := candidateName name k
    if occupied.contains c then resolveNameAux occupied name (k + 1) fuel else some c

def resolveName (occupied : List String) (name : String) (fuel : Nat) : Option String :=
  resolveNameAux occupied name 0 fuel

/-- A sequence of resolution requests against one directory, each
returned name becoming occupied before the next request (the situation
of successive moves into the same directory). -/
def resolveRequestsGo (occ : List String) : List String → List String
  | [] => []
  | n :: ns =>
    let r := (resolveName occ n (occ.length + 2)).getD n
    r :: resolveRequestsGo (r :: occ) ns

def resolveRequests (names : List String) : List String :=
  resolveRequestsGo [] names

/-! ### The partition (`organize_images_into_chapters`, planning part)

Mirrors:
```
if images_per_chapter is None:
    total_chapters = 1
    images_per_chapter = total_images
else:
    total_chapters = math.ceil(total_images / images_per_chapter)
for chapter_num in range(1, total_chapters + 1):
    start_index = (chapter_num - 1) * images_per_chapter
    end_index = min(start_index + images_per_chapter, total_images)
```
Each plan entry is `(chapter name, start index, end index)`. -/

def chapterPlan (total : Nat) (ipc : Option Nat) : List (String × Nat × Nat) :=
  let g := ipc.getD total
  let totalChapters := match ipc with
    | none => 1
    | some g0 => (total + g0 - 1) / g0
  (List.range totalChapters).map
    (fun i => (format_chapter_name (i + 1), i * g, min (i * g + g) total))

/-! ### Filesystem model

A filesystem state is a listing of directory paths and file paths,
each a list of components relative to the source root.  Listing order
stands in for the OS enumeration order (`iterdir` / `rglob`), which the
script depends on but the OS leaves unspecified. -/

abbrev Path := List String

/-- The final component (Python `Path.name`). -/
def pathName (p : Path) : String := p.getLastD ""

structure FS where
  dirs : List Path
  files : List Path
deriving DecidableEq, Repr

def FS.pathExists (fs : FS) (p : Path) : Bool :=
  fs.dirs.contains p || fs.files.contains p

/-- Append those of `new` not already present (order-preserving). -/
def addMissing (ds : List Path) (new : List Path) : List Path :=
  new.foldl (fun acc q => if acc.contains q then acc else acc ++ [q]) ds

/-- The nonempty prefixes of a path: the directory and its ancestors. -/
def dirChain (p : Path) : List Path :=
  p.inits.filter (fun q => !q.isEmpty)

/-- `mkdir(parents=True, exist_ok=True)`. -/
def FS.mkdirP (fs : FS) (p : Path) : FS :=
  { fs with dirs := addMissing fs.dirs (dirChain p) }

/-- `shutil.move` of a file. -/
def FS.move (fs : FS) (src dst : Path) : FS :=
  { fs with files := fs.files.erase src ++ [dst] }

/-- `shutil.copy2` of a file (the copy's content identity is irrelevant
to the claims; only the path matters). -/
def FS.copyFile (fs : FS) (dst : Path) : FS :=
  { fs with files := fs.files ++ [dst] }

def rebase (src dst p : Path) : Option Path :=
  if src.isPrefixOf p then some (dst ++ p.drop src.length) else none

/-- `shutil.copytree src dst` (`os.makedirs(dst)` creates `dst` and its
missing ancestors, then the whole tree under `src` is replicated). -/
def FS.copytree (fs : FS) (src dst : Path) : FS :=
  { dirs := addMissing fs.dirs (dirChain dst ++ fs.dirs.filterMap (rebase src dst)),
    files := fs.files ++ fs.files.filterMap (rebase src dst) }

/-- `p` is a strict descendant of `root`. -/
def strictUnder (root p : Path) : Bool :=
  root.isPrefixOf p && decide (root.length < p.length)

/-! ### `get_image_files`

Mirrors:
```
image_extensions = {'.jpg', '.jpeg', '.png', '.gif', '.bmp', '.webp', '.tiff', '.tif'}
for file_path in path_obj.rglob('*'):
    if file_path.is_file() and file_path.suffix.lower() in image_extensions: ...
return sorted(images, key=lambda x: x.name)
```
Python's `sorted` is a stable sort by the key; `List.insertionSort`
with the by-name preorder is also a stable sort by that key, hence the
same function. -/

def imageExtensions : List String :=
  [".jpg", ".jpeg", ".png", ".gif", ".bmp", ".webp", ".tiff", ".tif"]

def strLower (s : String) : String := String.mk (s.toList.map Char.toLower)

def isImageFile (p : Path) : Bool :=
  imageExtensions.contains (strLower (fileSuffix (pathName p)))

def byNameLe (a b : Path) : Prop := strLe (pathName a) (pathName b) = true

instance instDecByNameLe : DecidableRel byNameLe :=
  fun _ _ => inferInstanceAs (Decidable (_ = true))

def imageFilter (root : Path) (f : Path) : Bool :=
  strictUnder root f && isImageFile f

def get_image_files (fs : FS) (root : Path) : List Path :=
  List.insertionSort byNameLe (fs.files.filter (imageFilter root))

/-- Modelled from the spec (for comparison with `get_image_files`):
"sorted by filename (lexicographic, case-sensitive, ties broken by full
path)". -/
def specByNamePathLe (a b : Path) : Prop :=
  (if pathName a = pathName b
   then strLe (String.intercalate "/" a) (String.intercalate "/" b)
   else strLe (pathName a) (pathName b)) = true

instance instDecSpecByNamePathLe : DecidableRel specByNamePathLe :=
  fun _ _ => inferInstanceAs (Decidable (_ = true))

def specEnumerate (fs : FS) (root : Path) : List Path :=
  List.insertionSort specByNamePathLe (fs.files.filter (imageFilter root))

/-! ### Destination resolution against the live filesystem

The same collision loop as `resolveName`, with the occupancy check
`dest_path.exists()` made against the entries of the target directory.
`entriesIn fs dir` lists the final components whose full path exists in
`dir`.  The fuel `occ.length + 2` is enough for the loop of the source
to have found a free candidate whenever the candidates are distinct;
`getD` supplies an (unreachable) fallback to keep the function total. -/

def entriesIn (fs : FS) (dir : Path) : List String :=
  (fs.dirs ++ fs.files).filterMap
    (fun p => if p.dropLast == dir then p.getLast? else none)

def resolveDest (fs : FS) (dir : Path) (name : String) : String :=
  let occ := entriesIn fs dir
  (resolveName occ name (occ.length + 2)).getD name

/-! ### `organize_images_into_chapters` (stateful part) -/

/-- The per-image move loop of one chapter: resolve the destination
against the live state, then `shutil.move` guarded by `try/except`
(a failing move leaves the state unchanged and the loop continues).
`fail img = true` models "the move of `img` raises". -/
def moveImagesLoop (fail : Path → Bool) (chapterPath : Path) :
    List Path → FS → FS
  | [], fs => fs
  | img :: rest, fs =>
    let dest := chapterPath ++ [resolveDest fs chapterPath (pathName img)]
    moveImagesLoop fail chapterPath rest (if fail img then fs else fs.move img dest)

def sliceOf (l : List Path) (s e : Nat) : List Path := (l.drop s).take (e - s)

def chapterStep (imageFiles : List Path) (mangaPath : Path) (dryRun : Bool)
    (fail : Path → Bool) (entry : String × Nat × Nat) (fs : FS) : FS :=
  if dryRun then fs
  else
    let chapterPath := mangaPath ++ [entry.1]
    moveImagesLoop fail chapterPath (sliceOf imageFiles entry.2.1 entry.2.2)
      (fs.mkdirP chapterPath)

def chaptersLoop (imageFiles : List Path) (mangaPath : Path) (dryRun : Bool)
    (fail : Path → Bool) : List (String × Nat × Nat) → FS → FS
  | [], fs => fs
  | entry :: rest, fs =>
    chaptersLoop imageFiles mangaPath dryRun fail rest
      (chapterStep imageFiles mangaPath dryRun fail entry fs)

/-- The per-chapter report (`"Creating {name} with {len} images"`). -/
def chapterCounts (imageFiles : List Path) (plan : List (String × Nat × Nat)) :
    List (String × Nat) :=
  plan.map (fun ent => (ent.1, (sliceOf imageFiles ent.2.1 ent.2.2).length))

def organize_images_into_chapters (mangaPath : Path) (imageFiles : List Path)
    (ipc : Option Nat) (dryRun : Bool) (fail : Path → Bool) (fs : FS) :
    FS × List (String × Nat) :=
  let plan := chapterPlan imageFiles.length ipc
  (chaptersLoop imageFiles mangaPath dryRun fail plan fs,
   chapterCounts imageFiles plan)

/-! ### `remove_empty_directories`

The source repeatedly collects every empty directory under the root and
removes the batch until none remains.  Each round removes at least one
directory, so `fs.dirs.length` rounds of fuel always reach the fixed
point. -/

def isEmptyDir (fs : FS) (d : Path) : Bool :=
  !(fs.files.any (fun f => strictUnder d f) || fs.dirs.any (fun q => strictUnder d q))

def emptyDirsUnder (fs : FS) (root : Path) : List Path :=
  fs.dirs.filter (fun d => strictUnder root d && isEmptyDir fs d)

def removeEmptyDirsAux (root : Path) : Nat → FS → FS
  | 0, fs => fs
  | fuel + 1, fs =>
    let es := emptyDirsUnder fs root
    if es.isEmpty then fs
    else removeEmptyDirsAux root fuel
      { fs with dirs := fs.dirs.filter (fun d => !es.contains d) }

def remove_empty_directories (fs : FS) (root : Path) : FS :=
  removeEmptyDirsAux root fs.dirs.length fs

/-! ### `organize_mihon_image_folders` (the orchestration)

The run may abort with an uncaught exception: in copy mode the
`shutil.copy2` call is not inside a `try`, so a failing copy propagates
out of the whole function.  The model returns `Except Path ...`, the
error value naming the offending source file. -/

inductive CollEvent
  | skipped (title : String)
  | organized (title : String) (total : Nat) (chapters : List (String × Nat))
deriving DecidableEq, Repr

/-- Lines 172–178: in-place per-Collection backup,
`shutil.copytree` guarded by `if not manga_backup_path.exists()`. -/
def inPlaceBackup (mangaDir : Path) (title : String) (fs : FS) : FS :=
  if fs.pathExists ["_Backup", title] then fs
  else fs.copytree mangaDir ["_Backup", title]

/-- Lines 188–202: copy mode duplicates every image into the target,
resolving collisions; `shutil.copy2` is not wrapped in `try`, so a
failure aborts. -/
def copyImagesLoop (fail : Path → Bool) (target : Path) :
    List Path → FS → Except Path FS
  | [], fs => .ok fs
  | img :: rest, fs =>
    let dest := target ++ [resolveDest fs target (pathName img)]
    if fail img then .error img
    else copyImagesLoop fail target rest (fs.copyFile dest)

def processCollection (ipc : Option Nat) (dryRun inPlace : Bool)
    (fail : Path → Bool) (dirName : String) (fs : FS) :
    Except Path (FS × CollEvent) :=
  let title := get_safe_folder_name dirName
  let mangaDir : Path := [dirName]
  let imageFiles := get_image_files fs mangaDir
  if imageFiles.isEmpty then .ok (fs, .skipped title)
  else if inPlace then
    let fs1 := if dryRun then fs else inPlaceBackup mangaDir title fs
    let result := organize_images_into_chapters mangaDir imageFiles ipc dryRun fail fs1
    let fs2 := if dryRun then result.1 else remove_empty_directories result.1 mangaDir
    .ok (fs2, .organized title imageFiles.length result.2)
  else
    let target : Path := ["Organized_Mihon", title]
    if dryRun then
      let result := organize_images_into_chapters target imageFiles ipc true fail fs
      .ok (result.1, .organized title imageFiles.length result.2)
    else
      match copyImagesLoop fail target imageFiles
          ((fs.mkdirP ["Organized_Mihon"]).mkdirP target) with
      | .error e => .error e
      | .ok fs1 =>
        let imageFiles2 := get_image_files fs1 target
        let result := organize_images_into_chapters target imageFiles2 ipc false fail fs1
        .ok (result.1, .organized title imageFiles2.length result.2)

def reservedName (n : String) : Bool :=
  n == "Organized_Mihon" || n == "_Backup"

/-- The manga directories: immediate subdirectories of the source root
whose name does not match `^(Organized_Mihon|_Backup)$`. -/
def discoverCollections (fs : FS) : List String :=
  fs.dirs.filterMap (fun d =>
    match d with
    | [n] => if reservedName n then none else some n
    | _ => none)

/-- Lines 150–155: the top-level `_Backup` directory is created up
front only in copy mode (`if not in_place and not dry_run`). -/
def preBackupDirStep (inPlace dryRun : Bool) (fs : FS) : FS :=
  if !inPlace && !dryRun then
    (if fs.pathExists ["_Backup"] then fs else fs.mkdirP ["_Backup"])
  else fs

def runCollections (ipc : Option Nat) (dryRun inPlace : Bool) (fail : Path → Bool) :
    List String → FS → Except Path (FS × List CollEvent)
  | [], fs => .ok (fs, [])
  | n :: ns, fs =>
    match processCollection ipc dryRun inPlace fail n fs with
    | .error e => .error e
    | .ok (fs1, ev) =>
      match runCollections ipc dryRun inPlace fail ns fs1 with
      | .error e => .error e
      | .ok (fs2, evs) => .ok (fs2, ev :: evs)

def organize_mihon_image_folders (ipc : Option Nat) (dryRun inPlace : Bool)
    (fail : Path → Bool) (fs : FS) : Except Path (FS × List CollEvent) :=
  let names := discoverCollections fs
  if names.isEmpty then .ok (fs, [])
  else runCollections ipc dryRun inPlace fail names (preBackupDirStep inPlace dryRun fs)

/-- The state after copy mode created the target directories and copied
the images to the destinations `dests`. -/
def copyTargetState (fs : FS) (title : String) (dests : List Path) : FS :=
  { (fs.mkdirP ["Organized_Mihon"]).mkdirP ["Organized_Mihon", title] with
    files := ((fs.mkdirP ["Organized_Mihon"]).mkdirP
      ["Organized_Mihon", title]).files ++ dests }

/-! ### Derived descriptions used in statements -/

def noFail : Path → Bool := fun _ => false

def headIs (n : String) (p : Path) : Bool := p.head? == some n

def filesHead (fs : FS) (n : String) : List Path := fs.files.filter (headIs n)

/-- The report of one collection as a function of the item count alone. -/
def reportOf (total : Nat) (ipc : Option Nat) : List (String × Nat) :=
  (chapterPlan total ipc).map
    (fun ent => (ent.1, min (ent.2.2 - ent.2.1) (total - ent.2.1)))

def dryEventFor (ipc : Option Nat) (fs : FS) (n : String) : CollEvent :=
  let title := get_safe_folder_name n
  let l := get_image_files fs [n]
  if l.isEmpty then .skipped title
  else .organized title l.length (reportOf l.length ipc)

def dryEvents (ipc : Option Nat) (fs : FS) : List CollEvent :=
  (discoverCollections fs).map (dryEventFor ipc fs)

/-- The per-collection events of a run, when it did not abort. -/
def runEvents (ipc : Option Nat) (dryRun inPlace : Bool) (fail : Path → Bool)
    (fs : FS) : Option (List CollEvent) :=
  (organize_mihon_image_folders ipc dryRun inPlace fail fs).toOption.map Prod.snd

/-! ### Concrete states used by counterexamples and witnesses -/

/-- Two image files with the same filename in different subdirectories,
listed (traversal order) with `x` before `w`. -/
def fsTie : FS :=
  ⟨[["M"], ["M", "x"], ["M", "w"]],
   [["M", "x", "a.jpg"], ["M", "w", "a.jpg"]]⟩

/-- One collection `M` with one image, and a pre-existing image under
`Organized_Mihon/M` left over from an earlier run. -/
def fsPre : FS :=
  ⟨[["M"], ["Organized_Mihon"], ["Organized_Mihon", "M"]],
   [["M", "x.jpg"], ["Organized_Mihon", "M", "y.jpg"]]⟩

/-- One collection `M` with two images. -/
def fsTwo : FS := ⟨[["M"]], [["M", "x.jpg"], ["M", "z.jpg"]]⟩

/-- The move/copy of `M/x.jpg` raises; every other operation succeeds. -/
def failOnX : Path → Bool := fun p => p == ["M", "x.jpg"]

/-- A state in which the backup of `M` already exists. -/
def fsBk : FS := ⟨[["M"], ["_Backup"], ["_Backup", "M"]], [["M", "a.jpg"]]⟩

/-- One collection directory with no images at all. -/
def fsEmpty : FS := ⟨[["M"]], []⟩

/-! ## Theorems
    Order lemmas for the by-name comparison. -/

theorem charListLe_refl (l : List Char) : charListLe l l = true := by
  induction l with
  | nil => rfl
  | cons a as ih => simp [charListLe, ih]

theorem charListLe_total (l₁ l₂ : List Char) :
    charListLe l₁ l₂ = true ∨ charListLe l₂ l₁ = true := by
  induction l₁ generalizing l₂ with
  | nil => left; rfl
  | cons a as ih =>
    cases l₂ with
    | nil => right; rfl
    | cons b bs =>
      by_cases hab : a.toNat = b.toNat
      · simpa [charListLe, hab] using ih bs
      · rcases Nat.lt_or_ge a.toNat b.toNat with h | h
        · left; simp [charListLe, hab, h]
        · right
          have hba : b.toNat ≠ a.toNat := fun he => hab he.symm
          have : b.toNat < a.toNat := lt_of_le_of_ne h hba
          simp [charListLe, hba, this]

theorem charListLe_trans {l₁ l₂ l₃ : List Char}
    (h₁ : charListLe l₁ l₂ = true) (h₂ : charListLe l₂ l₃ = true) :
    charListLe l₁ l₃ = true := by
  induction l₁ generalizing l₂ l₃ with
  | nil => rfl
  | cons a as ih =>
    cases l₂ with
    | nil => simp [charListLe] at h₁
    | cons b bs =>
      cases l₃ with
      | nil => simp [charListLe] at h₂
      | cons c cs =>
        by_cases hab : a.toNat = b.toNat
        · by_cases hbc : b.toNat = c.toNat
          · have hac : a.toNat = c.toNat := hab.trans hbc
            simp only [charListLe, hab, if_true, hbc, hac] at *
            exact ih h₁ h₂
          · have hlt : b.toNat < c.toNat := by
              simpa [charListLe, hbc] using h₂
            have hac : a.toNat ≠ c.toNat := by rw [hab]; exact hbc
            have : a.toNat < c.toNat := hab ▸ hlt
            simp [charListLe, hac, this]
        · have hlt : a.toNat < b.toNat := by
            simpa [charListLe, hab] using h₁
          by_cases hbc : b.toNat = c.toNat
          · have hac : a.toNat ≠ c.toNat := by rw [← hbc]; exact hab
            have : a.toNat < c.toNat := hbc ▸ hlt
            simp [charListLe, hac, this]
          · have hlt₂ : b.toNat < c.toNat := by
              simpa [charListLe, hbc] using h₂
            have hac' : a.toNat < c.toNat := hlt.trans hlt₂
            have hac : a.toNat ≠ c.toNat := Nat.ne_of_lt hac'
            simp [charListLe, hac, hac']

theorem strLe_refl (s : String) : strLe s s = true := charListLe_refl _

theorem strLe_of_eq {a b : String} (h : a = b) : strLe a b = true := by
  subst h; exact strLe_refl a

/-! ### C1: the partition -/

theorem chapterPlan_length_pos (N g : Nat) (hg : 1 ≤ g) (hN : 1 ≤ N) :
    (chapterPlan N (some g)).length = (N - 1) / g + 1 := by
  have h1 : N + g - 1 = (N - 1) + g := by omega
  simp only [chapterPlan, List.length_map, List.length_range]
  rw [h1, Nat.add_div_right _ hg]

/-- C1: for `g ≥ 1` over `N` items, the plan of
`organize_images_into_chapters` has exactly `ceil(N/g)` entries
(`[]` for `N = 0`; for `N ≥ 1` the length `L` satisfies
`(L-1)*g < N ≤ L*g`, which characterizes the ceiling), entry `i`
(0-based; chapter `i+1`) covers `[i*g, min ((i+1)*g) N)`, every entry
except the last ends at `(i+1)*g` (so the ranges are contiguous,
non-overlapping and each non-final group has exactly `g` items), and
the last entry ends at `N` (so the ranges cover `[0, N)` exactly). -/
theorem chapterPlan_partition (N g : Nat) (hg : 1 ≤ g) :
    (N = 0 → chapterPlan N (some g) = []) ∧
    (1 ≤ N → 1 ≤ (chapterPlan N (some g)).length ∧
      ((chapterPlan N (some g)).length - 1) * g < N ∧
      N ≤ (chapterPlan N (some g)).length * g) ∧
    (∀ i (h : i < (chapterPlan N (some g)).length),
      (chapterPlan N (some g)).get ⟨i, h⟩ =
        (format_chapter_name (i + 1), i * g, min ((i + 1) * g) N)) ∧
    (∀ i, i + 1 < (chapterPlan N (some g)).length → min ((i + 1) * g) N = (i + 1) * g) ∧
    (1 ≤ N → min ((chapterPlan N (some g)).length * g) N = N) := by
  have hg0 : 0 < g := hg
  refine ⟨?_, ?_, ?_, ?_, ?_⟩
  · intro h; subst h
    simp [chapterPlan, Nat.div_eq_of_lt (show g - 1 < g by omega)]
  · intro hN
    rw [chapterPlan_length_pos N g hg hN]
    refine ⟨Nat.succ_le_succ (Nat.zero_le _), ?_, ?_⟩
    · simp only [Nat.add_sub_cancel]
      have := Nat.div_mul_le_self (N - 1) g
      omega
    · have hq := Nat.div_add_mod (N - 1) g
      have hm := Nat.mod_lt (N - 1) hg0
      set q := (N - 1) / g with hqdef
      set r := (N - 1) % g with hrdef
      calc N = g * q + r + 1 := by omega
        _ ≤ g * q + g := by omega
        _ = (q + 1) * g := by ring
  · intro i h
    simp only [chapterPlan, Option.getD_some] at h ⊢
    simp only [List.get_eq_getElem, List.getElem_map, List.getElem_range]
    have : i * g + g = (i + 1) * g := by ring
    rw [this]
  · intro i h
    have hN : 1 ≤ N := by
      by_contra hN
      have h0 : N = 0 := by omega
      subst h0
      simp [chapterPlan, Nat.div_eq_of_lt (show g - 1 < g by omega)] at h
    rw [chapterPlan_length_pos N g hg hN] at h
    have : i + 1 ≤ (N - 1) / g := by omega
    have h2 : (i + 1) * g ≤ ((N - 1) / g) * g := Nat.mul_le_mul_right g this
    have h3 := Nat.div_mul_le_self (N - 1) g
    omega
  · intro hN
    rw [chapterPlan_length_pos N g hg hN]
    have hq := Nat.div_add_mod (N - 1) g
    have hm := Nat.mod_lt (N - 1) hg0
    have : N ≤ ((N - 1) / g + 1) * g := by
      set q := (N - 1) / g
      set r := (N - 1) % g
      calc N = g * q + r + 1 := by omega
        _ ≤ g * q + g := by omega
        _ = (q + 1) * g := by ring
    omega

theorem chapterPlan_partition_w :
    1 ≤ 3 ∧
    ((7 = 0 → chapterPlan 7 (some 3) = []) ∧
    (1 ≤ 7 → 1 ≤ (chapterPlan 7 (some 3)).length ∧
      ((chapterPlan 7 (some 3)).length - 1) * 3 < 7 ∧
      7 ≤ (chapterPlan 7 (some 3)).length * 3) ∧
    (∀ i (h : i < (chapterPlan 7 (some 3)).length),
      (chapterPlan 7 (some 3)).get ⟨i, h⟩ =
        (format_chapter_name (i + 1), i * 3, min ((i + 1) * 3) 7)) ∧
    (∀ i, i + 1 < (chapterPlan 7 (some 3)).length → min ((i + 1) * 3) 7 = (i + 1) * 3) ∧
    (1 ≤ 7 → min ((chapterPlan 7 (some 3)).length * 3) 7 = 7)) :=
  ⟨by decide, chapterPlan_partition 7 3 (by decide)⟩

/-! ### C5: collision resolution -/

theorem resolveNameAux_firstFree (occ : List String) (name : String) :
    ∀ fuel k r, resolveNameAux occ name k fuel = some r →
      occ.contains r = false ∧
      ∃ m, k ≤ m ∧ r = candidateName name m ∧
        ∀ j, k ≤ j → j < m → occ.contains (candidateName name j) = true := by
  intro fuel
  induction fuel with
  | zero => intro k r h; simp [resolveNameAux] at h
  | succ fuel ih =>
    intro k r h
    simp only [resolveNameAux] at h
    by_cases hc : occ.contains (candidateName name k) = true
    · rw [if_pos hc] at h
      obtain ⟨hfree, m, hkm, hr, hall⟩ := ih (k + 1) r h
      refine ⟨hfree, m, by omega, hr, fun j hkj hjm => ?_⟩
      rcases Nat.eq_or_lt_of_le hkj with he | hlt
      · exact he ▸ hc
      · exact hall j hlt hjm
    · rw [if_neg hc] at h
      cases h
      refine ⟨Bool.eq_false_iff.mpr hc, k, Nat.le_refl k, rfl, fun j hkj hjm => ?_⟩
      exact absurd (Nat.lt_of_le_of_lt hkj hjm) (Nat.lt_irrefl k)

/-- C5: whenever the collision loop returns a name, that name is not
occupied at the moment of the check, and it is the first free
candidate: it is `candidateName name m` for some counter `m` and every
earlier candidate (the desired name itself, then `stem_1.ext`,
`stem_2.ext`, …) was occupied.  Moreover, repeated requests for
`"a.jpg"` against an initially empty directory, each result becoming
occupied before the next request, yield `a.jpg, a_1.jpg, a_2.jpg` in
request order. -/
theorem collision_resolution_spec :
    (∀ occ name fuel r, resolveName occ name fuel = some r →
        occ.contains r = false ∧
        ∃ m, r = candidateName name m ∧
          ∀ j, j < m → occ.contains (candidateName name j) = true) ∧
    resolveRequests ["a.jpg", "a.jpg", "a.jpg"] = ["a.jpg", "a_1.jpg", "a_2.jpg"] := by
  constructor
  · intro occ name fuel r h
    obtain ⟨hfree, m, _, hr, hall⟩ := resolveNameAux_firstFree occ name fuel 0 r h
    exact ⟨hfree, m, hr, fun j hj => hall j (Nat.zero_le j) hj⟩
  · decide

theorem collision_resolution_spec_w :
    (["a.jpg"] : List String).contains "a_1.jpg" = false ∧
    ∃ m, ("a_1.jpg" : String) = candidateName "a.jpg" m ∧
      ∀ j, j < m → (["a.jpg"] : List String).contains (candidateName "a.jpg" j) = true :=
  collision_resolution_spec.1 ["a.jpg"] "a.jpg" 5 "a_1.jpg" (by decide)

/-! ### C7: the sanitizer -/

theorem toList_mk (l : List Char) : (String.mk l).toList = l := rfl

theorem length_mk (l : List Char) : (String.mk l).length = l.length := rfl

theorem head?_dropWhile_not (p : Char → Bool) (l : List Char) :
    ∀ c, (l.dropWhile p).head? = some c → p c = false := by
  induction l with
  | nil => intro c h; simp [List.dropWhile] at h
  | cons a as ih =>
    intro c h
    by_cases hp : p a = true
    · rw [List.dropWhile_cons_of_pos hp] at h; exact ih c h
    · rw [List.dropWhile_cons_of_neg hp] at h
      simp only [List.head?_cons, Option.some.injEq] at h
      subst h; exact Bool.eq_false_iff.mpr hp

theorem head?_of_isPrefix {l₁ l₂ : List Char} (h : l₁ <+: l₂) (hne : l₁ ≠ []) :
    l₁.head? = l₂.head? := by
  obtain ⟨t, rfl⟩ := h
  cases l₁ with
  | nil => exact absurd rfl hne
  | cons a as => rfl

theorem get_safe_folder_name_eq (s : String) :
    get_safe_folder_name s =
      if (strippedList s).length > 100 then String.mk ((strippedList s).take 100)
      else String.mk (strippedList s) := rfl

theorem strippedList_head (s : String) (c : Char)
    (h : (strippedList s).head? = some c) : isSpaceOrDot c = false := by
  simp only [strippedList] at h
  have hne : List.rdropWhile isSpaceOrDot
      ((s.toList.map sanitizeChar).dropWhile isSpaceOrDot) ≠ [] := by
    intro he; rw [he] at h; simp at h
  have hpre := List.rdropWhile_prefix isSpaceOrDot
    ((s.toList.map sanitizeChar).dropWhile isSpaceOrDot)
  rw [head?_of_isPrefix hpre hne] at h
  exact head?_dropWhile_not _ _ _ h

theorem strippedList_getLast (s : String) (c : Char)
    (h : (strippedList s).getLast? = some c) : isSpaceOrDot c = false := by
  rw [List.getLast?_eq_head?_reverse] at h
  simp only [strippedList, List.rdropWhile, List.reverse_reverse] at h
  exact head?_dropWhile_not _ _ _ h

theorem strippedList_mem (s : String) (c : Char) (h : c ∈ strippedList s) :
    c ∉ invalidChars := by
  have h1 : c ∈ (s.toList.map sanitizeChar).dropWhile isSpaceOrDot :=
    (List.rdropWhile_prefix isSpaceOrDot _).sublist.subset h
  have h2 : c ∈ s.toList.map sanitizeChar :=
    (List.dropWhile_sublist isSpaceOrDot).subset h1
  obtain ⟨c₀, _, rfl⟩ := List.mem_map.mp h2
  by_cases hc : c₀ ∈ invalidChars
  · simp only [sanitizeChar, if_pos hc]; decide
  · simp only [sanitizeChar, if_neg hc]; exact hc

theorem head?_take_pos {α : Type} (l : List α) (n : Nat) (hn : 0 < n) :
    (l.take n).head? = l.head? := by
  cases l with
  | nil => simp
  | cons a as =>
    cases n with
    | zero => exact absurd hn (Nat.lt_irrefl 0)
    | succ m => rw [List.take_succ_cons]; rfl

set_option maxRecDepth 8000 in
/-- C7 (amended: the source strips only space and dot characters, not
all whitespace): the sanitizer output has length at most 100, contains
no character of `< > : " / \ | ? *`, never starts with a space or dot,
never ends with one as long as the stripped form needed no truncation,
and matches the specification examples. -/
theorem get_safe_folder_name_spec (s : String) :
    (get_safe_folder_name s).length ≤ 100 ∧
    (∀ c, c ∈ (get_safe_folder_name s).toList → c ∉ invalidChars) ∧
    (∀ c, (get_safe_folder_name s).toList.head? = some c → isSpaceOrDot c = false) ∧
    ((stripSpaceDot (replaceInvalid s)).length ≤ 100 →
      ∀ c, (get_safe_folder_name s).toList.getLast? = some c → isSpaceOrDot c = false) ∧
    get_safe_folder_name "My/Manga:Title*" = "My_Manga_Title_" ∧
    get_safe_folder_name (String.mk (List.replicate 150 'x')) = String.mk (List.replicate 100 'x') ∧
    get_safe_folder_name "  .leading.trailing.  " = "leading.trailing" := by
  have hlen : (stripSpaceDot (replaceInvalid s)).length = (strippedList s).length := rfl
  refine ⟨?_, ?_, ?_, ?_, by decide, by decide, by decide⟩
  · rw [get_safe_folder_name_eq]
    by_cases h : (strippedList s).length > 100
    · rw [if_pos h]; rw [length_mk, List.length_take]; omega
    · rw [if_neg h]; rw [length_mk]; omega
  · intro c hc
    rw [get_safe_folder_name_eq] at hc
    by_cases h : (strippedList s).length > 100
    · rw [if_pos h] at hc
      rw [toList_mk] at hc
      exact strippedList_mem s c ((List.take_sublist 100 _).subset hc)
    · rw [if_neg h] at hc
      rw [toList_mk] at hc
      exact strippedList_mem s c hc
  · intro c hc
    rw [get_safe_folder_name_eq] at hc
    by_cases h : (strippedList s).length > 100
    · rw [if_pos h] at hc
      rw [toList_mk, head?_take_pos _ _ (by omega)] at hc
      exact strippedList_head s c hc
    · rw [if_neg h] at hc
      rw [toList_mk] at hc
      exact strippedList_head s c hc
  · intro hle c hc
    rw [hlen] at hle
    rw [get_safe_folder_name_eq, if_neg (by omega)] at hc
    rw [toList_mk] at hc
    exact strippedList_getLast s c hc

theorem get_safe_folder_name_spec_w :
    (get_safe_folder_name "  .a b.  ").length ≤ 100 ∧
    isSpaceOrDot 'a' = false :=
  ⟨(get_safe_folder_name_spec "  .a b.  ").1,
   (get_safe_folder_name_spec "  .a b.  ").2.2.1 'a' (by decide)⟩

/-- C7 counterexample: the claim says all leading and trailing
whitespace is stripped; the source strips only spaces and dots
(`.strip(' .')`), so an input ending in a tab keeps it. -/
theorem sanitizer_whitespace_cex :
    get_safe_folder_name "a\t" = "a\t" ∧
    Char.isWhitespace '\t' = true ∧
    get_safe_folder_name "a\t" ≠ "a" := by decide

/-! ### C8: chapter naming -/

/-- C8: chapter `k` (`k ≥ 1`) is named `"Chapter "` followed by the
decimal digits of `k` left-padded with zeros to width exactly
`max 3 (number of digits)`: three digits at least, growing beyond 1000
rather than truncating. -/
theorem format_chapter_name_spec (k : Nat) (_hk : 1 ≤ k) :
    format_chapter_name 1 = "Chapter 001" ∧
    format_chapter_name 12 = "Chapter 012" ∧
    format_chapter_name 1000 = "Chapter 1000" ∧
    ∃ p, format_chapter_name k =
        "Chapter " ++ String.mk (List.replicate p '0') ++ Nat.repr k ∧
      p + (Nat.repr k).length = max 3 (Nat.repr k).length := by
  refine ⟨by decide, by decide, by decide, 3 - (Nat.repr k).length, rfl, ?_⟩
  omega

theorem format_chapter_name_spec_w :
    1 ≤ 1 ∧
    (format_chapter_name 1 = "Chapter 001" ∧
    format_chapter_name 12 = "Chapter 012" ∧
    format_chapter_name 1000 = "Chapter 1000" ∧
    ∃ p, format_chapter_name 1 =
        "Chapter " ++ String.mk (List.replicate p '0') ++ Nat.repr 1 ∧
      p + (Nat.repr 1).length = max 3 (Nat.repr 1).length) :=
  ⟨Nat.le_refl 1, format_chapter_name_spec 1 (Nat.le_refl 1)⟩

/-! ### C2: empty input -/

/-- C2 counterexample: with the group size unset, the partition of zero
items still produces one group (`Chapter 001`), not zero groups. -/
theorem chapterPlan_empty_unset_cex :
    (chapterPlan 0 none).length = 1 ∧
    chapterPlan 0 none = [("Chapter 001", 0, 0)] ∧
    chapterPlan 0 none ≠ [] := by decide


/-! ### C6: enumeration order -/

theorem byNameLe_of_eq {a b : Path} (h : pathName a = pathName b) : byNameLe a b :=
  strLe_of_eq h

theorem filter_orderedInsert_pos (n : String) (a : Path) (l : List Path)
    (ha : pathName a = n) :
    (List.orderedInsert byNameLe a l).filter (fun f => pathName f == n) =
      a :: l.filter (fun f => pathName f == n) := by
  induction l with
  | nil => simp [List.orderedInsert, ha]
  | cons b bs ih =>
    by_cases hr : byNameLe a b
    · rw [List.orderedInsert, if_pos hr]
      simp [List.filter_cons, ha]
    · rw [List.orderedInsert, if_neg hr]
      have hb : (pathName b == n) = false := by
        apply beq_eq_false_iff_ne.mpr
        intro he
        exact hr (byNameLe_of_eq (by rw [ha, he]))
      rw [List.filter_cons_of_neg (by simp [hb]), ih]
      rw [List.filter_cons_of_neg (by simp [hb])]

theorem filter_orderedInsert_neg (n : String) (a : Path) (l : List Path)
    (ha : ¬ pathName a = n) :
    (List.orderedInsert byNameLe a l).filter (fun f => pathName f == n) =
      l.filter (fun f => pathName f == n) := by
  have ha' : (pathName a == n) = false := beq_eq_false_iff_ne.mpr ha
  induction l with
  | nil => simp [List.orderedInsert, ha']
  | cons b bs ih =>
    by_cases hr : byNameLe a b
    · rw [List.orderedInsert, if_pos hr]
      rw [List.filter_cons_of_neg (by simp [ha'])]
    · rw [List.orderedInsert, if_neg hr]
      rw [List.filter_cons, List.filter_cons]
      by_cases hpb : (pathName b == n) = true
      · rw [if_pos hpb, if_pos hpb, ih]
      · rw [if_neg hpb, if_neg hpb, ih]

theorem filter_insertionSort_byName (n : String) (l : List Path) :
    (List.insertionSort byNameLe l).filter (fun f => pathName f == n) =
      l.filter (fun f => pathName f == n) := by
  induction l with
  | nil => rfl
  | cons a as ih =>
    simp only [List.insertionSort]
    by_cases ha : pathName a = n
    · rw [filter_orderedInsert_pos n a _ ha, ih,
        List.filter_cons_of_pos (by simp [ha])]
    · rw [filter_orderedInsert_neg n a _ ha, ih,
        List.filter_cons_of_neg (by simp [beq_eq_false_iff_ne.mpr ha])]

/-- C6 (amended: the enumeration sorts by filename with a stable sort;
equal filenames keep their traversal order and are not compared by
full path): `get_image_files` returns a permutation of the classified
files under the root, sorted ascending by filename, and for every
filename the subsequence of files bearing it equals that of the
traversal order (stability). -/
theorem get_image_files_sorted_stable (fs : FS) (root : Path) :
    List.Sorted byNameLe (get_image_files fs root) ∧
    List.Perm (get_image_files fs root) (fs.files.filter (imageFilter root)) ∧
    (∀ n, (get_image_files fs root).filter (fun f => pathName f == n) =
      (fs.files.filter (imageFilter root)).filter (fun f => pathName f == n)) := by
  refine ⟨?_, List.perm_insertionSort _ _, fun n => filter_insertionSort_byName n _⟩
  letI : IsTotal Path byNameLe := ⟨fun a b => charListLe_total _ _⟩
  letI : IsTrans Path byNameLe := ⟨fun a b c hab hbc => charListLe_trans hab hbc⟩
  exact List.sorted_insertionSort byNameLe _

/-- C6 counterexample: two files both named `a.jpg`, traversed with the
`M/x` copy first.  The source's stable sort keeps the traversal order;
sorting with the claimed full-path tie-break would swap them. -/
theorem enumeration_tie_order_cex :
    get_image_files fsTie ["M"] = [["M", "x", "a.jpg"], ["M", "w", "a.jpg"]] ∧
    specEnumerate fsTie ["M"] = [["M", "w", "a.jpg"], ["M", "x", "a.jpg"]] ∧
    get_image_files fsTie ["M"] ≠ specEnumerate fsTie ["M"] := by decide



/-! ### Utilities on the filesystem model -/

theorem contains_iff_mem {α : Type} [BEq α] [LawfulBEq α] {l : List α} {a : α} :
    l.contains a = true ↔ a ∈ l := List.elem_iff

theorem mem_addMissing_of_left {ds new : List Path} {q : Path} (h : q ∈ ds) :
    q ∈ addMissing ds new := by
  induction new generalizing ds with
  | nil => exact h
  | cons a rest ih =>
    simp only [addMissing, List.foldl_cons]
    by_cases hc : ds.contains a = true
    · rw [if_pos hc]; exact ih h
    · rw [if_neg hc]; exact ih (List.mem_append_left _ h)

theorem mem_addMissing_of_right {ds new : List Path} {q : Path} (h : q ∈ new) :
    q ∈ addMissing ds new := by
  induction new generalizing ds with
  | nil => simp at h
  | cons a rest ih =>
    simp only [addMissing, List.foldl_cons]
    rcases List.mem_cons.mp h with rfl | hmem
    · by_cases hc : ds.contains q = true
      · rw [if_pos hc]; exact mem_addMissing_of_left (contains_iff_mem.mp hc)
      · rw [if_neg hc]
        exact mem_addMissing_of_left (List.mem_append_right _ (List.mem_singleton.mpr rfl))
    · by_cases hc : ds.contains a = true
      · rw [if_pos hc]; exact ih hmem
      · rw [if_neg hc]; exact ih hmem

theorem mem_dirChain_self {p : Path} (hp : p ≠ []) : p ∈ dirChain p := by
  unfold dirChain
  refine List.mem_filter.mpr ⟨(List.mem_inits _ _).mpr (List.prefix_refl p), ?_⟩
  simp [List.isEmpty_iff, hp]

/-- `copytree` makes the destination directory exist. -/
theorem copytree_dst_exists (fs : FS) (src dst : Path) (hd : dst ≠ []) :
    (fs.copytree src dst).pathExists dst = true := by
  unfold FS.copytree FS.pathExists
  apply Bool.or_eq_true_iff.mpr
  left
  exact contains_iff_mem.mpr
    (mem_addMissing_of_right (List.mem_append_left _ (mem_dirChain_self hd)))

/-! ### C9: backup idempotence -/

/-- C9: the in-place per-Collection backup copies the tree only when
`<source>/_Backup/<title>` does not exist: it is the identity as soon
as that path exists, it establishes the path's existence, and it is
idempotent (a second run performs no backup copy). -/
theorem inPlaceBackup_spec (fs : FS) (mangaDir : Path) (title : String) :
    (fs.pathExists ["_Backup", title] = true → inPlaceBackup mangaDir title fs = fs) ∧
    (inPlaceBackup mangaDir title fs).pathExists ["_Backup", title] = true ∧
    inPlaceBackup mangaDir title (inPlaceBackup mangaDir title fs) =
      inPlaceBackup mangaDir title fs := by
  refine ⟨fun h => by rw [inPlaceBackup, if_pos h], ?_, ?_⟩
  · by_cases h : fs.pathExists ["_Backup", title] = true
    · rw [inPlaceBackup, if_pos h]; exact h
    · rw [inPlaceBackup, if_neg h]
      exact copytree_dst_exists fs mangaDir _ (by simp)
  · by_cases h : fs.pathExists ["_Backup", title] = true
    · have hi : inPlaceBackup mangaDir title fs = fs := by rw [inPlaceBackup, if_pos h]
      rw [hi, hi]
    · have he : inPlaceBackup mangaDir title fs = fs.copytree mangaDir ["_Backup", title] := by
        rw [inPlaceBackup, if_neg h]
      have h2 : (fs.copytree mangaDir ["_Backup", title]).pathExists ["_Backup", title] = true :=
        copytree_dst_exists fs mangaDir _ (by simp)
      rw [he, inPlaceBackup, if_pos h2]

theorem inPlaceBackup_spec_w :
    inPlaceBackup ["M"] "M" fsBk = fsBk ∧
    (inPlaceBackup ["M"] "M" fsTwo).pathExists ["_Backup", "M"] = true :=
  ⟨(inPlaceBackup_spec fsBk ["M"] "M").1 (by decide),
   (inPlaceBackup_spec fsTwo ["M"] "M").2.1⟩

/-! ### C2: empty input, amended -/

/-- C2 (amended: with the group size unset the partition of an empty
input yields one empty group, not zero): with a group size `g ≥ 1`
zero items yield zero groups; with the size unset they yield exactly
one group named `Chapter 001` with the empty range; and the
orchestrator never reaches the partition for an empty Collection —
a Collection without images is skipped with no state change. -/
theorem empty_partition_amended (g : Nat) (hg : 1 ≤ g) :
    chapterPlan 0 (some g) = [] ∧
    chapterPlan 0 none = [(format_chapter_name 1, 0, 0)] ∧
    (∀ (ipc : Option Nat) (dryRun inPlace : Bool) (fail : Path → Bool)
        (n : String) (fs : FS),
      get_image_files fs [n] = [] →
      processCollection ipc dryRun inPlace fail n fs =
        .ok (fs, CollEvent.skipped (get_safe_folder_name n))) := by
  refine ⟨?_, by decide, ?_⟩
  · simp [chapterPlan, Nat.div_eq_of_lt (show g - 1 < g by omega)]
  · intro ipc dryRun inPlace fail n fs h
    simp [processCollection, h]

theorem empty_partition_amended_w :
    1 ≤ 2 ∧
    (chapterPlan 0 (some 2) = [] ∧
     chapterPlan 0 none = [(format_chapter_name 1, 0, 0)] ∧
     processCollection (some 2) false true noFail "M" fsEmpty =
       .ok (fsEmpty, CollEvent.skipped (get_safe_folder_name "M"))) :=
  ⟨by decide,
   (empty_partition_amended 2 (by decide)).1,
   (empty_partition_amended 2 (by decide)).2.1,
   (empty_partition_amended 2 (by decide)).2.2 (some 2) false true noFail "M" fsEmpty (by decide)⟩



/-! ### Dry-run lemmas -/

theorem sliceOf_length (l : List Path) (s e : Nat) :
    (sliceOf l s e).length = min (e - s) (l.length - s) := by
  simp [sliceOf, List.length_take, List.length_drop]

theorem chapterCounts_eq_reportOf (l : List Path) (ipc : Option Nat) :
    chapterCounts l (chapterPlan l.length ipc) = reportOf l.length ipc := by
  unfold chapterCounts reportOf
  exact List.map_congr_left (fun ent _ => by rw [sliceOf_length])

theorem chaptersLoop_dry (imageFiles : List Path) (mangaPath : Path)
    (fail : Path → Bool) : ∀ (plan : List (String × Nat × Nat)) (fs : FS),
    chaptersLoop imageFiles mangaPath true fail plan fs = fs := by
  intro plan
  induction plan with
  | nil => intro fs; rfl
  | cons e rest ih =>
    intro fs
    rw [chaptersLoop, chapterStep, if_pos rfl]
    exact ih fs

theorem organize_dry (mangaPath : Path) (imageFiles : List Path)
    (ipc : Option Nat) (fail : Path → Bool) (fs : FS) :
    organize_images_into_chapters mangaPath imageFiles ipc true fail fs =
      (fs, reportOf imageFiles.length ipc) := by
  simp only [organize_images_into_chapters]
  rw [chaptersLoop_dry, chapterCounts_eq_reportOf]

theorem processCollection_dry (ipc : Option Nat) (inPlace : Bool)
    (fail : Path → Bool) (n : String) (fs : FS) :
    processCollection ipc true inPlace fail n fs = .ok (fs, dryEventFor ipc fs n) := by
  unfold processCollection dryEventFor
  by_cases h : (get_image_files fs [n]).isEmpty = true
  · simp only [h, if_true]
  · cases inPlace <;> simp [h, organize_dry]

theorem runCollections_dry (ipc : Option Nat) (inPlace : Bool)
    (fail : Path → Bool) : ∀ (names : List String) (fs : FS),
    runCollections ipc true inPlace fail names fs =
      .ok (fs, names.map (dryEventFor ipc fs)) := by
  intro names
  induction names with
  | nil => intro fs; rfl
  | cons n ns ih =>
    intro fs
    simp only [runCollections, processCollection_dry, ih, List.map_cons]

/-- A dry run leaves the state untouched and reports the dry events. -/
theorem run_dry (ipc : Option Nat) (inPlace : Bool) (fail : Path → Bool) (fs : FS) :
    organize_mihon_image_folders ipc true inPlace fail fs = .ok (fs, dryEvents ipc fs) := by
  unfold organize_mihon_image_folders dryEvents
  by_cases h : (discoverCollections fs).isEmpty = true
  · rw [if_pos h, List.isEmpty_iff.mp h]
    rfl
  · rw [if_neg h]
    have hpb : preBackupDirStep inPlace true fs = fs := by
      simp [preBackupDirStep]
    rw [hpb, runCollections_dry]



/-! ### Preservation of file sets by the filesystem operations -/

theorem filter_erase_of_neg {p : Path → Bool} {a : Path} (l : List Path)
    (ha : p a = false) : (l.erase a).filter p = l.filter p := by
  induction l with
  | nil => rfl
  | cons b bs ih =>
    rw [List.erase_cons]
    by_cases hb : (b == a) = true
    · rw [if_pos hb]
      have hpb : p b = false := by rw [eq_of_beq hb]; exact ha
      rw [List.filter_cons_of_neg (by simp [hpb])]
    · rw [if_neg hb]
      by_cases hpb : p b = true
      · rw [List.filter_cons_of_pos hpb, List.filter_cons_of_pos hpb, ih]
      · rw [List.filter_cons_of_neg hpb, List.filter_cons_of_neg hpb, ih]

theorem files_mkdirP (fs : FS) (q : Path) : (fs.mkdirP q).files = fs.files := rfl

theorem filter_files_move (fs : FS) (src dst : Path) (p : Path → Bool)
    (hs : p src = false) (hd : p dst = false) :
    (fs.move src dst).files.filter p = fs.files.filter p := by
  show (fs.files.erase src ++ [dst]).filter p = _
  rw [List.filter_append, filter_erase_of_neg _ hs]
  simp [List.filter_cons, hd]

theorem filter_files_copyFile (fs : FS) (dst : Path) (p : Path → Bool)
    (hd : p dst = false) :
    (fs.copyFile dst).files.filter p = fs.files.filter p := by
  show (fs.files ++ [dst]).filter p = _
  rw [List.filter_append]
  simp [List.filter_cons, hd]

theorem filter_files_copytree (fs : FS) (src dst : Path) (p : Path → Bool)
    (hdst : ∀ t : Path, p (dst ++ t) = false) :
    (fs.copytree src dst).files.filter p = fs.files.filter p := by
  show (fs.files ++ fs.files.filterMap (rebase src dst)).filter p = _
  rw [List.filter_append]
  have hnil : (fs.files.filterMap (rebase src dst)).filter p = [] := by
    rw [List.filter_eq_nil_iff]
    intro a ha
    obtain ⟨b, _, hb⟩ := List.mem_filterMap.mp ha
    unfold rebase at hb
    by_cases hpre : src.isPrefixOf b = true
    · rw [if_pos hpre] at hb
      cases hb
      simp [hdst]
    · rw [if_neg hpre] at hb; cases hb
  rw [hnil, List.append_nil]

theorem filter_files_moveImagesLoop (fail : Path → Bool) (cp : Path) (p : Path → Bool)
    (hcp : ∀ c, p (cp ++ [c]) = false) :
    ∀ (imgs : List Path) (fs : FS), (∀ i ∈ imgs, p i = false) →
    (moveImagesLoop fail cp imgs fs).files.filter p = fs.files.filter p := by
  intro imgs
  induction imgs with
  | nil => intro fs _; rfl
  | cons i rest ih =>
    intro fs himgs
    simp only [moveImagesLoop]
    rw [ih _ (fun x hx => himgs x (List.mem_cons_of_mem i hx))]
    by_cases hf : fail i = true
    · rw [if_pos hf]
    · rw [if_neg hf,
        filter_files_move _ _ _ p (himgs i (List.mem_cons_self i rest)) (hcp _)]

theorem mem_sliceOf {l : List Path} {s e : Nat} {x : Path} (h : x ∈ sliceOf l s e) :
    x ∈ l :=
  ((List.take_sublist _ _).trans (List.drop_sublist _ _)).subset h

theorem filter_files_chaptersLoop (imageFiles : List Path) (mangaPath : Path)
    (dryRun : Bool) (fail : Path → Bool) (p : Path → Bool)
    (himgs : ∀ i ∈ imageFiles, p i = false)
    (hmp : ∀ (name : String) (c : String), p ((mangaPath ++ [name]) ++ [c]) = false) :
    ∀ (plan : List (String × Nat × Nat)) (fs : FS),
    (chaptersLoop imageFiles mangaPath dryRun fail plan fs).files.filter p =
      fs.files.filter p := by
  intro plan
  induction plan with
  | nil => intro fs; rfl
  | cons ent rest ih =>
    intro fs
    rw [chaptersLoop, ih]
    unfold chapterStep
    by_cases hd : dryRun = true
    · rw [if_pos hd]
    · rw [if_neg hd]
      rw [filter_files_moveImagesLoop fail _ p (hmp ent.1) _ _
        (fun x hx => himgs x (mem_sliceOf hx))]
      rfl

theorem files_removeEmptyDirsAux (root : Path) :
    ∀ (fuel : Nat) (fs : FS), (removeEmptyDirsAux root fuel fs).files = fs.files := by
  intro fuel
  induction fuel with
  | zero => intro fs; rfl
  | succ f ih =>
    intro fs
    simp only [removeEmptyDirsAux]
    by_cases h : (emptyDirsUnder fs root).isEmpty = true
    · rw [if_pos h]
    · rw [if_neg h, ih]

theorem files_remove_empty_directories (fs : FS) (root : Path) :
    (remove_empty_directories fs root).files = fs.files :=
  files_removeEmptyDirsAux root _ fs

/-! ### Membership facts about the enumeration -/

theorem mem_get_image_files {fs : FS} {root f : Path} (h : f ∈ get_image_files fs root) :
    f ∈ fs.files ∧ strictUnder root f = true ∧ isImageFile f = true := by
  have h2 : f ∈ fs.files.filter (imageFilter root) :=
    (List.perm_insertionSort byNameLe _).mem_iff.mp h
  obtain ⟨hf, hfil⟩ := List.mem_filter.mp h2
  simp only [imageFilter, Bool.and_eq_true] at hfil
  exact ⟨hf, hfil.1, hfil.2⟩

theorem head?_eq_of_strictUnder {root f : Path} (hr : root ≠ [])
    (h : strictUnder root f = true) : f.head? = root.head? := by
  unfold strictUnder at h
  simp only [Bool.and_eq_true] at h
  obtain ⟨hpre, _⟩ := h
  cases root with
  | nil => exact absurd rfl hr
  | cons r rs =>
    cases f with
    | nil => simp [List.isPrefixOf] at hpre
    | cons b bs =>
      simp only [List.isPrefixOf, Bool.and_eq_true] at hpre
      rw [List.head?_cons, List.head?_cons, eq_of_beq hpre.1]

theorem headIs_false_of_head {n m : String} {f : Path} (hf : f.head? = some n)
    (hne : m ≠ n) : headIs m f = false := by
  unfold headIs
  rw [hf]
  apply beq_eq_false_iff_ne.mpr
  intro he
  exact hne (Option.some.inj he).symm

theorem headIs_false_of_strictUnder_single {n m : String} {f : Path}
    (h : strictUnder [n] f = true) (hne : m ≠ n) : headIs m f = false :=
  headIs_false_of_head (by rw [head?_eq_of_strictUnder (by simp) h]; rfl) hne

/-! ### Failing items stay in place -/

theorem mem_files_moveImagesLoop (fail : Path → Bool) (cp : Path) (q : Path)
    (hq : fail q = true) :
    ∀ (imgs : List Path) (fs : FS), q ∈ fs.files →
      q ∈ (moveImagesLoop fail cp imgs fs).files := by
  intro imgs
  induction imgs with
  | nil => intro fs h; exact h
  | cons i rest ih =>
    intro fs h
    simp only [moveImagesLoop]
    apply ih
    by_cases hf : fail i = true
    · rw [if_pos hf]; exact h
    · rw [if_neg hf]
      show q ∈ fs.files.erase i ++ _
      apply List.mem_append_left
      have hne : q ≠ i := fun he => hf (he ▸ hq)
      exact (List.mem_erase_of_ne hne).mpr h

theorem mem_files_chaptersLoop (imageFiles : List Path) (mangaPath : Path)
    (dryRun : Bool) (fail : Path → Bool) (q : Path) (hq : fail q = true) :
    ∀ (plan : List (String × Nat × Nat)) (fs : FS), q ∈ fs.files →
      q ∈ (chaptersLoop imageFiles mangaPath dryRun fail plan fs).files := by
  intro plan
  induction plan with
  | nil => intro fs h; exact h
  | cons ent rest ih =>
    intro fs h
    rw [chaptersLoop]
    apply ih
    unfold chapterStep
    by_cases hd : dryRun = true
    · rw [if_pos hd]; exact h
    · rw [if_neg hd]
      exact mem_files_moveImagesLoop fail _ q hq _ _ h

theorem mem_files_inPlaceBackup (fs : FS) (mangaDir : Path) (title : String)
    (q : Path) (h : q ∈ fs.files) : q ∈ (inPlaceBackup mangaDir title fs).files := by
  unfold inPlaceBackup
  by_cases he : fs.pathExists ["_Backup", title] = true
  · rw [if_pos he]; exact h
  · rw [if_neg he]
    exact List.mem_append_left _ h

theorem filesHead_inPlaceBackup (fs : FS) (mangaDir : Path) (title m : String)
    (hm : m ≠ "_Backup") :
    filesHead (inPlaceBackup mangaDir title fs) m = filesHead fs m := by
  unfold inPlaceBackup
  by_cases he : fs.pathExists ["_Backup", title] = true
  · rw [if_pos he]
  · rw [if_neg he]
    exact filter_files_copytree fs mangaDir _ (headIs m)
      (fun t => headIs_false_of_head (by rfl) hm)



/-! ### The in-place run -/

theorem processCollection_inPlace_spec (ipc : Option Nat) (fail : Path → Bool)
    (n : String) (fs : FS) :
    ∃ fs', processCollection ipc false true fail n fs = .ok (fs', dryEventFor ipc fs n) ∧
      (∀ m, m ≠ n → m ≠ "_Backup" → filesHead fs' m = filesHead fs m) ∧
      (∀ q, fail q = true → q ∈ fs.files → q ∈ fs'.files) := by
  by_cases h : (get_image_files fs [n]).isEmpty = true
  · refine ⟨fs, ?_, fun m _ _ => rfl, fun q _ hq => hq⟩
    simp [processCollection, dryEventFor, h]
  · refine ⟨remove_empty_directories
      (chaptersLoop (get_image_files fs [n]) [n] false fail
        (chapterPlan (get_image_files fs [n]).length ipc)
        (inPlaceBackup [n] (get_safe_folder_name n) fs)) [n], ?_, ?_, ?_⟩
    · simp only [processCollection, h, Bool.false_eq_true, if_false, if_true, if_pos rfl,
        organize_images_into_chapters, dryEventFor]
      rw [chapterCounts_eq_reportOf]
    · intro m hmn hmb
      unfold filesHead
      rw [files_remove_empty_directories]
      rw [filter_files_chaptersLoop (get_image_files fs [n]) [n] false fail (headIs m)
        (fun i hi => headIs_false_of_strictUnder_single (mem_get_image_files hi).2.1 hmn)
        (fun name c => headIs_false_of_head rfl hmn)]
      exact filesHead_inPlaceBackup fs [n] _ m hmb
    · intro q hq hmem
      rw [files_remove_empty_directories]
      exact mem_files_chaptersLoop _ _ _ _ q hq _ _
        (mem_files_inPlaceBackup fs [n] _ q hmem)

theorem dryEventFor_congr {ipc : Option Nat} {fs fs' : FS} {n : String}
    (h : filesHead fs n = filesHead fs' n) :
    dryEventFor ipc fs n = dryEventFor ipc fs' n := by
  have hfiles : fs.files.filter (imageFilter [n]) = fs'.files.filter (imageFilter [n]) := by
    have hsub : ∀ (g : FS), g.files.filter (imageFilter [n]) =
        (filesHead g n).filter (imageFilter [n]) := by
      intro g
      unfold filesHead
      induction g.files with
      | nil => rfl
      | cons a l ih =>
        by_cases hh : headIs n a = true
        · rw [List.filter_cons_of_pos hh, List.filter_cons, List.filter_cons, ih]
        · have him : imageFilter [n] a = false := by
            apply Bool.eq_false_iff.mpr
            intro hcon
            simp only [imageFilter, Bool.and_eq_true] at hcon
            have hhd := head?_eq_of_strictUnder (by simp) hcon.1
            apply hh
            unfold headIs
            rw [hhd]
            exact beq_self_eq_true _
          rw [List.filter_cons_of_neg (by simp [him]),
            List.filter_cons_of_neg (by simp [hh]), ih]
    rw [hsub fs, hsub fs', h]
  have henum : get_image_files fs [n] = get_image_files fs' [n] := by
    unfold get_image_files
    rw [hfiles]
  unfold dryEventFor
  rw [henum]

theorem discover_mem_not_reserved {fs : FS} {n : String}
    (h : n ∈ discoverCollections fs) : reservedName n = false := by
  obtain ⟨d, _, hd⟩ := List.mem_filterMap.mp h
  rcases d with _ | ⟨a, _ | ⟨b, t⟩⟩
  · simp at hd
  · by_cases hr : reservedName a = true
    · simp [hr] at hd
    · simp [hr] at hd
      rw [← hd]
      exact Bool.eq_false_iff.mpr hr
  · simp at hd

theorem discover_nodup {fs : FS} (h : fs.dirs.Nodup) :
    (discoverCollections fs).Nodup := by
  apply List.Nodup.filterMap _ h
  intro a a' b hb hb'
  have ha : a = [b] := by
    rcases a with _ | ⟨x, _ | ⟨y, t⟩⟩
    · simp at hb
    · by_cases hr : reservedName x = true
      · simp [hr] at hb
      · simp [hr] at hb
        rw [hb]
    · simp at hb
  have ha' : a' = [b] := by
    rcases a' with _ | ⟨x, _ | ⟨y, t⟩⟩
    · simp at hb'
    · by_cases hr : reservedName x = true
      · simp [hr] at hb'
      · simp [hr] at hb'
        rw [hb']
    · simp at hb'
  rw [ha, ha']

theorem runCollections_inPlace_spec (ipc : Option Nat) (fail : Path → Bool) :
    ∀ (names : List String) (fs : FS),
    ∃ fs' evs, runCollections ipc false true fail names fs = .ok (fs', evs) ∧
      evs.length = names.length ∧
      (∀ q, fail q = true → q ∈ fs.files → q ∈ fs'.files) ∧
      (∀ m, m ∉ names → m ≠ "_Backup" → filesHead fs' m = filesHead fs m) ∧
      ((∀ m ∈ names, m ≠ "_Backup") → names.Nodup →
        evs = names.map (dryEventFor ipc fs)) := by
  intro names
  induction names with
  | nil =>
    intro fs
    exact ⟨fs, [], rfl, rfl, fun q _ hq => hq, fun m _ _ => rfl, fun _ _ => rfl⟩
  | cons n ns ih =>
    intro fs
    obtain ⟨fs1, hproc, hpres1, hmem1⟩ := processCollection_inPlace_spec ipc fail n fs
    obtain ⟨fs2, evs2, hrun, hlen, hmem2, hpres2, hevs2⟩ := ih fs1
    refine ⟨fs2, dryEventFor ipc fs n :: evs2, ?_, by simp [hlen], ?_, ?_, ?_⟩
    · simp only [runCollections, hproc, hrun]
    · intro q hq hmemq
      exact hmem2 q hq (hmem1 q hq hmemq)
    · intro m hm hmb
      have hmn : m ≠ n := fun he => hm (he ▸ List.mem_cons_self n ns)
      have hmns : m ∉ ns := fun he => hm (List.mem_cons_of_mem n he)
      rw [hpres2 m hmns hmb, hpres1 m hmn hmb]
    · intro hres hnd
      have hnd' : ns.Nodup := (List.nodup_cons.mp hnd).2
      have hnmem : n ∉ ns := (List.nodup_cons.mp hnd).1
      rw [hevs2 (fun m hm => hres m (List.mem_cons_of_mem n hm)) hnd']
      rw [List.map_cons]
      congr 1
      apply List.map_congr_left
      intro m hm
      have hmn : m ≠ n := fun he => hnmem (he ▸ hm)
      exact dryEventFor_congr (hpres1 m hmn
        (hres m (List.mem_cons_of_mem n hm)))



theorem reservedName_false_ne {n : String} (h : reservedName n = false) :
    n ≠ "Organized_Mihon" ∧ n ≠ "_Backup" := by
  unfold reservedName at h
  simp only [Bool.or_eq_false_iff, beq_eq_false_iff_ne] at h
  exact h

theorem run_inPlace_spec (ipc : Option Nat) (fail : Path → Bool) (fs : FS) :
    ∃ fs' evs, organize_mihon_image_folders ipc false true fail fs = .ok (fs', evs) ∧
      evs.length = (discoverCollections fs).length ∧
      (∀ q, fail q = true → q ∈ fs.files → q ∈ fs'.files) ∧
      (fs.dirs.Nodup → evs = dryEvents ipc fs) := by
  unfold organize_mihon_image_folders
  by_cases h : (discoverCollections fs).isEmpty = true
  · rw [if_pos h]
    refine ⟨fs, [], rfl, ?_, fun q _ hq => hq, fun _ => ?_⟩
    · rw [List.isEmpty_iff.mp h]; rfl
    · unfold dryEvents; rw [List.isEmpty_iff.mp h]; rfl
  · rw [if_neg h]
    have hpb : preBackupDirStep true false fs = fs := by simp [preBackupDirStep]
    rw [hpb]
    obtain ⟨fs', evs, hrun, hlen, hmem, _, hevs⟩ :=
      runCollections_inPlace_spec ipc fail (discoverCollections fs) fs
    refine ⟨fs', evs, hrun, hlen, hmem, fun hnd => ?_⟩
    exact hevs (fun m hm => (reservedName_false_ne (discover_mem_not_reserved hm)).2)
      (discover_nodup hnd)

/-- C3 counterexample: in copy mode a failing `shutil.copy2` is not
caught; the whole run aborts with the exception (and no events are
produced), contradicting "no single-file move or copy failure aborts
the run". -/
theorem copy_failure_aborts_cex :
    organize_mihon_image_folders (some 1) false false failOnX fsTwo =
      .error ["M", "x.jpg"] ∧
    runEvents (some 1) false false failOnX fsTwo = none := ⟨rfl, rfl⟩

/-- C3 (amended: only in-place moves are guarded by `try/except`; a
failing copy in copy-to-new-location mode propagates and aborts the
run): in in-place mode, whatever set of single-image moves fails, the
run completes normally, it still produces one event per Collection,
and every failing image is left at its prior path. -/
theorem move_failure_isolated (ipc : Option Nat) (fail : Path → Bool) (fs : FS) :
    ∃ fs' evs, organize_mihon_image_folders ipc false true fail fs = .ok (fs', evs) ∧
      evs.length = (discoverCollections fs).length ∧
      (∀ q, fail q = true → q ∈ fs.files → q ∈ fs'.files) :=
  let ⟨fs', evs, h1, h2, h3, _⟩ := run_inPlace_spec ipc fail fs
  ⟨fs', evs, h1, h2, h3⟩

theorem move_failure_isolated_w :
    ∃ fs' evs,
      organize_mihon_image_folders (some 1) false true failOnX fsTwo = .ok (fs', evs) ∧
      evs.length = (discoverCollections fsTwo).length ∧
      (∀ q, failOnX q = true → q ∈ fsTwo.files → q ∈ fs'.files) :=
  move_failure_isolated (some 1) failOnX fsTwo



/-! ### Suffix preservation by the collision counter -/

theorem lastIdxOf_cons (c a : Char) (as : List Char) :
    lastIdxOf c (a :: as) =
      match lastIdxOf c as with
      | some j => some (j + 1)
      | none => if a = c then some 0 else none := rfl

theorem lastIdxOf_append_right (c : Char) (l₂ : List Char) (j : Nat)
    (h : lastIdxOf c l₂ = some j) :
    ∀ l₁ : List Char, lastIdxOf c (l₁ ++ l₂) = some (l₁.length + j) := by
  intro l₁
  induction l₁ with
  | nil => simpa using h
  | cons a as ih =>
    rw [List.cons_append, lastIdxOf_cons, ih]
    show some (as.length + j + 1) = some ((a :: as).length + j)
    simp only [List.length_cons, Option.some.injEq]
    omega

theorem lastIdxOf_append_left (c : Char) (l₂ : List Char)
    (h : lastIdxOf c l₂ = none) :
    ∀ l₁ : List Char, lastIdxOf c (l₁ ++ l₂) = lastIdxOf c l₁ := by
  intro l₁
  induction l₁ with
  | nil => simpa using h
  | cons a as ih =>
    rw [List.cons_append, lastIdxOf_cons, ih, lastIdxOf_cons]

theorem lastIdxOf_none_iff (c : Char) (l : List Char) :
    lastIdxOf c l = none ↔ c ∉ l := by
  induction l with
  | nil => simp [lastIdxOf]
  | cons a as ih =>
    rw [lastIdxOf_cons]
    cases h : lastIdxOf c as with
    | some j =>
      simp only [reduceCtorEq, false_iff, List.mem_cons, not_or]
      intro hcon
      have : c ∈ as := by
        by_contra hnc
        rw [ih.mpr hnc] at h
        cases h
      exact hcon.2 this
    | none =>
      by_cases hac : a = c
      · simp only [if_pos hac, reduceCtorEq, false_iff, List.mem_cons, not_or]
        intro hcon
        exact hcon.1 hac.symm
      · simp only [if_neg hac, true_iff, List.mem_cons, not_or]
        exact ⟨fun he => hac he.symm, ih.mp h⟩

theorem lastIdxOf_drop (c : Char) : ∀ (l : List Char) (i : Nat),
    lastIdxOf c l = some i → ∃ t, l.drop i = c :: t ∧ c ∉ t := by
  intro l
  induction l with
  | nil => intro i h; simp [lastIdxOf] at h
  | cons a as ih =>
    intro i h
    rw [lastIdxOf_cons] at h
    cases h2 : lastIdxOf c as with
    | some j =>
      rw [h2] at h
      have hi : i = j + 1 := (Option.some.inj h).symm
      subst hi
      obtain ⟨t, ht, hnt⟩ := ih j h2
      exact ⟨t, by simpa using ht, hnt⟩
    | none =>
      rw [h2] at h
      by_cases hac : a = c
      · rw [if_pos hac] at h
        have hi : i = 0 := (Option.some.inj h).symm
        subst hi
        exact ⟨as, by rw [hac, List.drop_zero], (lastIdxOf_none_iff c as).mp h2⟩
      · rw [if_neg hac] at h
        cases h

theorem toList_append (a b : String) : (a ++ b).toList = a.toList ++ b.toList := rfl

theorem splitStemSuffix_unfold (s : String) :
    splitStemSuffix s =
      match lastIdxOf '.' s.toList with
      | none => (s, "")
      | some i =>
        if (decide (0 < i) && decide (i + 1 < s.toList.length)) = true then
          (String.mk (s.toList.take i), String.mk (s.toList.drop i))
        else (s, "") := rfl

theorem splitStemSuffix_eq_none (s : String) (h : lastIdxOf '.' s.toList = none) :
    splitStemSuffix s = (s, "") := by
  rw [splitStemSuffix_unfold, h]

theorem splitStemSuffix_eq_some (s : String) (i : Nat)
    (h : lastIdxOf '.' s.toList = some i) :
    splitStemSuffix s =
      if (decide (0 < i) && decide (i + 1 < s.toList.length)) = true then
        (String.mk (s.toList.take i), String.mk (s.toList.drop i))
      else (s, "") := by
  rw [splitStemSuffix_unfold, h]

theorem splitStemSuffix_cases (s : String) :
    (splitStemSuffix s).2 = "" ∨
    (∃ i t, lastIdxOf '.' s.toList = some i ∧ 0 < i ∧ i + 1 < s.toList.length ∧
      s.toList.drop i = '.' :: t ∧ '.' ∉ t ∧
      splitStemSuffix s = (String.mk (s.toList.take i), String.mk (s.toList.drop i))) := by
  cases hidx : lastIdxOf '.' s.toList with
  | none => left; rw [splitStemSuffix_eq_none s hidx]
  | some i =>
    by_cases hcond : (decide (0 < i) && decide (i + 1 < s.toList.length)) = true
    · right
      have hsplit := splitStemSuffix_eq_some s i hidx
      rw [if_pos hcond] at hsplit
      simp only [Bool.and_eq_true, decide_eq_true_eq] at hcond
      obtain ⟨t, hdrop, hnt⟩ := lastIdxOf_drop '.' s.toList i hidx
      exact ⟨i, t, rfl, hcond.1, hcond.2, hdrop, hnt, hsplit⟩
    · left
      rw [splitStemSuffix_eq_some s i hidx, if_neg hcond]

theorem candidateName_suffix (nm : String) (k : Nat) (hsu : fileSuffix nm ≠ "") :
    fileSuffix (candidateName nm (k + 1)) = fileSuffix nm := by
  rcases splitStemSuffix_cases nm with hem | ⟨i, t, hidx, hi0, hilen, hdrop, hnt, heq⟩
  · exact absurd hem hsu
  · unfold fileSuffix candidateName
    rw [if_neg (Nat.succ_ne_zero k), heq]
    show (splitStemSuffix (String.mk (nm.toList.take i) ++ "_" ++ Nat.repr (k + 1) ++
      String.mk (nm.toList.drop i))).2 = String.mk (nm.toList.drop i)
    have hlen_take : (nm.toList.take i).length = i := by
      rw [List.length_take]
      omega
    set l₁ : List Char := nm.toList.take i ++ ['_'] ++ (Nat.repr (k + 1)).toList
      with hl₁
    have hcs : (String.mk (nm.toList.take i) ++ "_" ++ Nat.repr (k + 1) ++
        String.mk (nm.toList.drop i)).toList = l₁ ++ ('.' :: t) := by
      show nm.toList.take i ++ ['_'] ++ (Nat.repr (k + 1)).toList ++ nm.toList.drop i =
        l₁ ++ ('.' :: t)
      rw [hdrop, hl₁]
    have hL : l₁.length = i + 1 + (Nat.repr (k + 1)).toList.length := by
      rw [hl₁, List.length_append, List.length_append, hlen_take]
      rfl
    have hdot : lastIdxOf '.' ('.' :: t) = some 0 := by
      rw [lastIdxOf_cons, (lastIdxOf_none_iff '.' t).mpr hnt]
      simp
    have hlast : lastIdxOf '.' (l₁ ++ ('.' :: t)) = some l₁.length := by
      rw [lastIdxOf_append_right '.' ('.' :: t) 0 hdot l₁, Nat.add_zero]
    have htlen : 0 < t.length := by
      have hdl : (nm.toList.drop i).length = nm.toList.length - i := List.length_drop i _
      rw [hdrop] at hdl
      simp only [List.length_cons] at hdl
      omega
    have hidx2 : lastIdxOf '.' (String.mk (nm.toList.take i) ++ "_" ++ Nat.repr (k + 1) ++
        String.mk (nm.toList.drop i)).toList = some l₁.length := by
      rw [hcs]
      exact hlast
    have hcond2 : (decide (0 < l₁.length) &&
        decide (l₁.length + 1 < (String.mk (nm.toList.take i) ++ "_" ++ Nat.repr (k + 1) ++
          String.mk (nm.toList.drop i)).toList.length)) = true := by
      simp only [Bool.and_eq_true, decide_eq_true_eq]
      constructor
      · omega
      · have hlen2 : (String.mk (nm.toList.take i) ++ "_" ++ Nat.repr (k + 1) ++
            String.mk (nm.toList.drop i)).toList.length = l₁.length + (t.length + 1) := by
          rw [hcs, List.length_append]
          rfl
        rw [hlen2]
        omega
    rw [splitStemSuffix_eq_some _ _ hidx2, if_pos hcond2]
    show String.mk ((String.mk (nm.toList.take i) ++ "_" ++ Nat.repr (k + 1) ++
      String.mk (nm.toList.drop i)).toList.drop l₁.length) = String.mk (nm.toList.drop i)
    rw [hcs, List.drop_left, hdrop]



/-! ### The copy loop of copy-to-new-location mode -/

theorem resolveDest_shape (fs : FS) (dir : Path) (nm : String) :
    ∃ m, resolveDest fs dir nm = candidateName nm m := by
  unfold resolveDest
  cases h : resolveName (entriesIn fs dir) nm ((entriesIn fs dir).length + 2) with
  | none => exact ⟨0, by simp [h, candidateName]⟩
  | some r =>
    obtain ⟨_, m, _, hr, _⟩ :=
      resolveNameAux_firstFree (entriesIn fs dir) nm ((entriesIn fs dir).length + 2) 0 r h
    exact ⟨m, by simp [h, hr]⟩

theorem pathName_append_singleton (l : Path) (c : String) :
    pathName (l ++ [c]) = c := by
  unfold pathName
  exact List.getLastD_concat _ _ _

theorem isPrefixOf_append_self (l t : Path) : l.isPrefixOf (l ++ t) = true := by
  induction l with
  | nil => simp [List.isPrefixOf]
  | cons a as ih =>
    simp only [List.cons_append, List.isPrefixOf, Bool.and_eq_true]
    exact ⟨beq_self_eq_true a, ih⟩

theorem strictUnder_append_singleton (root : Path) (c : String) :
    strictUnder root (root ++ [c]) = true := by
  unfold strictUnder
  simp only [Bool.and_eq_true, decide_eq_true_eq]
  refine ⟨isPrefixOf_append_self root [c], ?_⟩
  rw [List.length_append]
  simp

theorem isImageFile_nonempty_suffix {f : Path} (h : isImageFile f = true) :
    fileSuffix (pathName f) ≠ "" := by
  intro he
  unfold isImageFile at h
  rw [he] at h
  simp [strLower, imageExtensions] at h

theorem isImageFile_candidate {f : Path} (target : Path) (m : Nat)
    (h : isImageFile f = true) :
    isImageFile (target ++ [candidateName (pathName f) m]) = true := by
  unfold isImageFile
  rw [pathName_append_singleton]
  cases m with
  | zero =>
    rw [show candidateName (pathName f) 0 = pathName f from rfl]
    exact h
  | succ m0 =>
    rw [candidateName_suffix (pathName f) m0 (isImageFile_nonempty_suffix h)]
    exact h

/-- The copy loop never raises when no copy fails, appends exactly one
destination per image, and every destination is a classified image file
directly inside the target. -/
theorem copyImagesLoop_spec (target : Path) :
    ∀ (imgs : List Path) (fs : FS), (∀ i ∈ imgs, isImageFile i = true) →
    ∃ dests, copyImagesLoop noFail target imgs fs = .ok { fs with files := fs.files ++ dests } ∧
      dests.length = imgs.length ∧
      ∀ d ∈ dests, (∃ c, d = target ++ [c]) ∧
        strictUnder target d = true ∧ isImageFile d = true := by
  intro imgs
  induction imgs with
  | nil =>
    intro fs _
    exact ⟨[], by simp [copyImagesLoop], rfl, fun d hd => absurd hd (List.not_mem_nil d)⟩
  | cons i rest ih =>
    intro fs himgs
    obtain ⟨dests, hrun, hlen, hprops⟩ :=
      ih (fs.copyFile (target ++ [resolveDest fs target (pathName i)]))
        (fun x hx => himgs x (List.mem_cons_of_mem i hx))
    refine ⟨(target ++ [resolveDest fs target (pathName i)]) :: dests, ?_, by simp [hlen], ?_⟩
    · simp only [copyImagesLoop, noFail, Bool.false_eq_true, if_false, hrun]
      simp [FS.copyFile, List.append_assoc]
    · intro d hd
      rcases List.mem_cons.mp hd with rfl | hmem
      · obtain ⟨m, hm⟩ := resolveDest_shape fs target (pathName i)
        refine ⟨⟨resolveDest fs target (pathName i), rfl⟩,
          strictUnder_append_singleton target _, ?_⟩
        rw [hm]
        exact isImageFile_candidate target m (himgs i (List.mem_cons_self i rest))
      · exact hprops d hmem



/-! ### Copy-mode collection processing -/

theorem length_get_image_files (fs : FS) (root : Path) :
    (get_image_files fs root).length = (fs.files.filter (imageFilter root)).length :=
  (List.perm_insertionSort _ _).length_eq

theorem strictUnder_two_shape {a b : String} {f : Path}
    (h : strictUnder [a, b] f = true) : ∃ rest, f = a :: b :: rest := by
  unfold strictUnder at h
  simp only [Bool.and_eq_true] at h
  obtain ⟨hpre, _⟩ := h
  rcases f with _ | ⟨x, _ | ⟨y, rest⟩⟩
  · simp [List.isPrefixOf] at hpre
  · simp only [List.isPrefixOf, Bool.and_eq_true] at hpre
    exact absurd hpre.2 (by simp [List.isPrefixOf])
  · simp only [List.isPrefixOf, Bool.and_eq_true] at hpre
    exact ⟨rest, by rw [eq_of_beq hpre.1, eq_of_beq hpre.2.1]⟩

theorem strictUnder_two_ne {a t u : String} {rest : Path} (h : t ≠ u) :
    strictUnder [a, t] (a :: u :: rest) = false := by
  have hpre : ([a, t] : Path).isPrefixOf (a :: u :: rest) = false := by
    simp only [List.isPrefixOf]
    rw [beq_eq_false_iff_ne.mpr h]
    simp
  unfold strictUnder
  rw [hpre]
  rfl

theorem imageFilter_false_of_other_title {t title : String} {f : Path}
    (hne : t ≠ title) (hshape : ∃ rest, f = "Organized_Mihon" :: title :: rest) :
    imageFilter ["Organized_Mihon", t] f = false := by
  obtain ⟨rest, rfl⟩ := hshape
  unfold imageFilter
  rw [strictUnder_two_ne hne]
  rfl

theorem filter_imageFilter_nil_of_filesHead (fs : FS) (t : String)
    (h : filesHead fs "Organized_Mihon" = []) :
    fs.files.filter (imageFilter ["Organized_Mihon", t]) = [] := by
  rw [List.filter_eq_nil_iff]
  intro f hf hcon
  simp only [imageFilter, Bool.and_eq_true] at hcon
  have hhead := head?_eq_of_strictUnder (by simp) hcon.1
  have hmem : f ∈ filesHead fs "Organized_Mihon" := List.mem_filter.mpr ⟨hf, by
    unfold headIs
    rw [hhead]
    exact beq_self_eq_true _⟩
  rw [h] at hmem
  exact absurd hmem (List.not_mem_nil f)

theorem contains_dirs_mkdirP {fs : FS} {p d : Path} (h : fs.dirs.contains d = true) :
    (fs.mkdirP p).dirs.contains d = true :=
  contains_iff_mem.mpr (mem_addMissing_of_left (contains_iff_mem.mp h))

theorem dirs_moveImagesLoop (fail : Path → Bool) (cp : Path) :
    ∀ (imgs : List Path) (fs : FS), (moveImagesLoop fail cp imgs fs).dirs = fs.dirs := by
  intro imgs
  induction imgs with
  | nil => intro fs; rfl
  | cons i rest ih =>
    intro fs
    simp only [moveImagesLoop]
    rw [ih]
    by_cases hf : fail i = true
    · rw [if_pos hf]
    · rw [if_neg hf]; rfl

theorem contains_dirs_chaptersLoop (imageFiles : List Path) (mangaPath : Path)
    (dryRun : Bool) (fail : Path → Bool) (d : Path) :
    ∀ (plan : List (String × Nat × Nat)) (fs : FS),
    fs.dirs.contains d = true →
    (chaptersLoop imageFiles mangaPath dryRun fail plan fs).dirs.contains d = true := by
  intro plan
  induction plan with
  | nil => intro fs h; exact h
  | cons ent rest ih =>
    intro fs h
    rw [chaptersLoop]
    apply ih
    unfold chapterStep
    by_cases hd : dryRun = true
    · rw [if_pos hd]; exact h
    · rw [if_neg hd, dirs_moveImagesLoop]
      exact contains_dirs_mkdirP h

/-- Properties of the post-copy chapter organization in copy mode,
stated over any state whose files are the original ones plus the
copied destinations. -/
theorem copyState_spec (ipc : Option Nat) (title : String) (fs fs1 : FS)
    (dests : List Path)
    (hfiles1 : fs1.files = fs.files ++ dests)
    (hprops : ∀ d ∈ dests, (∃ c : String, d = ["Organized_Mihon", title] ++ [c]) ∧
       strictUnder ["Organized_Mihon", title] d = true ∧ isImageFile d = true) :
    (∀ m, m ≠ "Organized_Mihon" →
      filesHead (chaptersLoop (get_image_files fs1 ["Organized_Mihon", title])
        ["Organized_Mihon", title] false noFail
        (chapterPlan (get_image_files fs1 ["Organized_Mihon", title]).length ipc) fs1) m =
      filesHead fs m) ∧
    (∀ t, t ≠ title →
      (chaptersLoop (get_image_files fs1 ["Organized_Mihon", title])
        ["Organized_Mihon", title] false noFail
        (chapterPlan (get_image_files fs1 ["Organized_Mihon", title]).length ipc)
        fs1).files.filter (imageFilter ["Organized_Mihon", t]) =
        fs.files.filter (imageFilter ["Organized_Mihon", t])) ∧
    (fs.files.filter (imageFilter ["Organized_Mihon", title]) = [] →
      (get_image_files fs1 ["Organized_Mihon", title]).length = dests.length) := by
  have hshape : ∀ d ∈ dests, ∃ rest, d = "Organized_Mihon" :: title :: rest := by
    intro d hd
    obtain ⟨⟨c, hc⟩, _, _⟩ := hprops d hd
    exact ⟨[c], hc⟩
  have himgs2 : ∀ i ∈ get_image_files fs1 ["Organized_Mihon", title],
      ∃ rest, i = "Organized_Mihon" :: title :: rest := by
    intro i hi
    exact strictUnder_two_shape (mem_get_image_files hi).2.1
  refine ⟨?_, ?_, ?_⟩
  · intro m hm
    unfold filesHead
    have h1 : ∀ i ∈ get_image_files fs1 ["Organized_Mihon", title], headIs m i = false := by
      intro i hi
      obtain ⟨rest, hr⟩ := himgs2 i hi
      rw [hr]
      exact headIs_false_of_head rfl hm
    have h2 : ∀ (name c : String),
        headIs m ((["Organized_Mihon", title] ++ [name]) ++ [c]) = false := by
      intro name c
      exact headIs_false_of_head rfl hm
    rw [filter_files_chaptersLoop _ _ _ _ (headIs m) h1 h2]
    rw [hfiles1, List.filter_append]
    have hnil : dests.filter (headIs m) = [] := by
      rw [List.filter_eq_nil_iff]
      intro d hd hcon
      obtain ⟨rest, hr⟩ := hshape d hd
      rw [hr] at hcon
      rw [@headIs_false_of_head "Organized_Mihon" m
        ("Organized_Mihon" :: title :: rest) rfl hm] at hcon
      cases hcon
    rw [hnil, List.append_nil]
  · intro t ht
    have h2 : ∀ (name c : String),
        imageFilter ["Organized_Mihon", t]
          ((["Organized_Mihon", title] ++ [name]) ++ [c]) = false := by
      intro name c
      exact imageFilter_false_of_other_title ht ⟨[name, c], rfl⟩
    rw [filter_files_chaptersLoop _ _ _ _ (imageFilter ["Organized_Mihon", t])
      (fun i hi => imageFilter_false_of_other_title ht (himgs2 i hi)) h2]
    rw [hfiles1, List.filter_append]
    have hnil : dests.filter (imageFilter ["Organized_Mihon", t]) = [] := by
      rw [List.filter_eq_nil_iff]
      intro d hd hcon
      rw [imageFilter_false_of_other_title ht (hshape d hd)] at hcon
      cases hcon
    rw [hnil, List.append_nil]
  · intro hfresh
    rw [length_get_image_files, hfiles1, List.filter_append, hfresh, List.nil_append]
    have hself : dests.filter (imageFilter ["Organized_Mihon", title]) = dests := by
      rw [List.filter_eq_self]
      intro d hd
      obtain ⟨_, hsu, him⟩ := hprops d hd
      unfold imageFilter
      rw [hsu, him]
      rfl
    rw [hself]



theorem processCollection_copy_spec (ipc : Option Nat) (n : String) (fs : FS) :
    ∃ fs' ev, processCollection ipc false false noFail n fs = .ok (fs', ev) ∧
      (∀ m, m ≠ "Organized_Mihon" → filesHead fs' m = filesHead fs m) ∧
      (∀ d, fs.dirs.contains d = true → fs'.dirs.contains d = true) ∧
      (∀ t, t ≠ get_safe_folder_name n →
        fs'.files.filter (imageFilter ["Organized_Mihon", t]) =
          fs.files.filter (imageFilter ["Organized_Mihon", t])) ∧
      (fs.files.filter (imageFilter ["Organized_Mihon", get_safe_folder_name n]) = [] →
        ev = dryEventFor ipc fs n) := by
  by_cases h : (get_image_files fs [n]).isEmpty = true
  · exact ⟨fs, .skipped (get_safe_folder_name n), by simp [processCollection, h],
      fun m _ => rfl, fun d hd => hd, fun t _ => rfl, fun _ => by simp [dryEventFor, h]⟩
  · obtain ⟨dests, hcpy, hlen, hprops⟩ := copyImagesLoop_spec
      ["Organized_Mihon", get_safe_folder_name n] (get_image_files fs [n])
      ((fs.mkdirP ["Organized_Mihon"]).mkdirP ["Organized_Mihon", get_safe_folder_name n])
      (fun i hi => (mem_get_image_files hi).2.2)
    have hcpy2 : copyImagesLoop noFail ["Organized_Mihon", get_safe_folder_name n]
        (get_image_files fs [n])
        ((fs.mkdirP ["Organized_Mihon"]).mkdirP
          ["Organized_Mihon", get_safe_folder_name n]) =
        .ok (copyTargetState fs (get_safe_folder_name n) dests) := hcpy
    obtain ⟨hA, hB, hC⟩ := copyState_spec ipc (get_safe_folder_name n) fs
      (copyTargetState fs (get_safe_folder_name n) dests) dests rfl hprops
    have heq : processCollection ipc false false noFail n fs =
        .ok (chaptersLoop
            (get_image_files (copyTargetState fs (get_safe_folder_name n) dests)
              ["Organized_Mihon", get_safe_folder_name n])
            ["Organized_Mihon", get_safe_folder_name n] false noFail
            (chapterPlan (get_image_files (copyTargetState fs (get_safe_folder_name n) dests)
              ["Organized_Mihon", get_safe_folder_name n]).length ipc)
            (copyTargetState fs (get_safe_folder_name n) dests),
          .organized (get_safe_folder_name n)
            (get_image_files (copyTargetState fs (get_safe_folder_name n) dests)
              ["Organized_Mihon", get_safe_folder_name n]).length
            (chapterCounts
              (get_image_files (copyTargetState fs (get_safe_folder_name n) dests)
                ["Organized_Mihon", get_safe_folder_name n])
              (chapterPlan (get_image_files (copyTargetState fs (get_safe_folder_name n) dests)
                ["Organized_Mihon", get_safe_folder_name n]).length ipc))) := by
      simp only [processCollection, h, Bool.false_eq_true, if_false, hcpy2,
        organize_images_into_chapters]
    refine ⟨_, _, heq, hA, ?_, hB, ?_⟩
    · intro d hd
      apply contains_dirs_chaptersLoop
      exact contains_dirs_mkdirP (contains_dirs_mkdirP hd)
    · intro hfresh
      have hlen2 := hC hfresh
      have hlen3 : (get_image_files (copyTargetState fs (get_safe_folder_name n) dests)
          ["Organized_Mihon", get_safe_folder_name n]).length =
          (get_image_files fs [n]).length := by
        rw [hlen2, hlen]
      simp only [dryEventFor, h, Bool.false_eq_true, if_false]
      rw [chapterCounts_eq_reportOf, hlen3]



/-! ### The copy-mode run -/

theorem runCollections_copy_spec (ipc : Option Nat) :
    ∀ (names : List String) (fs : FS),
    ∃ fs' evs, runCollections ipc false false noFail names fs = .ok (fs', evs) ∧
      (∀ m, m ≠ "Organized_Mihon" → filesHead fs' m = filesHead fs m) ∧
      (∀ d, fs.dirs.contains d = true → fs'.dirs.contains d = true) ∧
      ((∀ m ∈ names, m ≠ "Organized_Mihon") →
        (names.map get_safe_folder_name).Nodup →
        (∀ m ∈ names,
          fs.files.filter (imageFilter ["Organized_Mihon", get_safe_folder_name m]) = []) →
        evs = names.map (dryEventFor ipc fs)) := by
  intro names
  induction names with
  | nil =>
    intro fs
    exact ⟨fs, [], rfl, fun m _ => rfl, fun d hd => hd, fun _ _ _ => rfl⟩
  | cons n ns ih =>
    intro fs
    obtain ⟨fs1, ev, hproc, hpres1, hdirs1, htitles1, hev1⟩ :=
      processCollection_copy_spec ipc n fs
    obtain ⟨fs2, evs2, hrun, hpres2, hdirs2, hevs2⟩ := ih fs1
    refine ⟨fs2, ev :: evs2, ?_, ?_, ?_, ?_⟩
    · simp only [runCollections, hproc, hrun]
    · intro m hm
      rw [hpres2 m hm, hpres1 m hm]
    · intro d hd
      exact hdirs2 d (hdirs1 d hd)
    · intro hres hnd hfresh
      rw [List.map_cons, List.nodup_cons] at hnd
      rw [List.map_cons]
      have hb1 : ev = dryEventFor ipc fs n :=
        hev1 (hfresh n (List.mem_cons_self n ns))
      have hb2 : evs2 = ns.map (dryEventFor ipc fs1) :=
        hevs2 (fun m hm => hres m (List.mem_cons_of_mem n hm))
          hnd.2
          (fun m hm => by
            rw [htitles1 (get_safe_folder_name m)
              (fun he => hnd.1 (by rw [← he]; exact List.mem_map_of_mem _ hm))]
            exact hfresh m (List.mem_cons_of_mem n hm))
      rw [hb1, hb2]
      congr 1
      apply List.map_congr_left
      intro m hm
      have hmo : m ≠ "Organized_Mihon" := hres m (List.mem_cons_of_mem n hm)
      exact dryEventFor_congr (hpres1 m hmo)

theorem run_copy_spec (ipc : Option Nat) (fs : FS)
    (hOM : filesHead fs "Organized_Mihon" = [])
    (htitles : ((discoverCollections fs).map get_safe_folder_name).Nodup) :
    ∃ fs', organize_mihon_image_folders ipc false false noFail fs =
      .ok (fs', dryEvents ipc fs) := by
  unfold organize_mihon_image_folders
  by_cases h : (discoverCollections fs).isEmpty = true
  · rw [if_pos h]
    refine ⟨fs, ?_⟩
    unfold dryEvents
    rw [List.isEmpty_iff.mp h]
    rfl
  · rw [if_neg h]
    have hfilesB : (preBackupDirStep false false fs).files = fs.files := by
      unfold preBackupDirStep
      by_cases hb : fs.pathExists ["_Backup"] = true <;> simp [hb, files_mkdirP]
    obtain ⟨fs', evs, hrun, _, _, hevs⟩ :=
      runCollections_copy_spec ipc (discoverCollections fs) (preBackupDirStep false false fs)
    refine ⟨fs', ?_⟩
    rw [hrun]
    have hevB : evs = (discoverCollections fs).map
        (dryEventFor ipc (preBackupDirStep false false fs)) := by
      apply hevs
      · exact fun m hm => (reservedName_false_ne (discover_mem_not_reserved hm)).1
      · exact htitles
      · intro m _
        rw [hfilesB]
        exact filter_imageFilter_nil_of_filesHead fs _ hOM
    have hsame : ∀ m, dryEventFor ipc (preBackupDirStep false false fs) m =
        dryEventFor ipc fs m := by
      intro m
      apply dryEventFor_congr
      unfold filesHead
      rw [hfilesB]
    have hfinal : evs = dryEvents ipc fs := by
      rw [hevB]
      unfold dryEvents
      exact List.map_congr_left (fun m _ => hsame m)
    rw [hfinal]



/-! ### C4: dry run -/

/-- C4 counterexample: start with an image already under
`Organized_Mihon/M` (left by an earlier run).  The dry run reports 1
chapter for Collection `M`, but the real copy-mode run on the same
starting state copies `M`'s image next to the pre-existing one,
re-enumerates the target, and reports 2 chapters. -/
theorem dryRun_copy_report_cex :
    runEvents (some 1) true false noFail fsPre =
      some [CollEvent.organized "M" 1 [("Chapter 001", 1)]] ∧
    runEvents (some 1) false false noFail fsPre =
      some [CollEvent.organized "M" 2 [("Chapter 001", 1), ("Chapter 002", 1)]] ∧
    runEvents (some 1) true false noFail fsPre ≠
      runEvents (some 1) false false noFail fsPre := by decide

/-- C4 (amended: report equality additionally needs, in copy mode, that
no image files already lie under `Organized_Mihon` and that the
Collections' sanitized titles are distinct — the counterexample shows
it fails otherwise): a dry run leaves the filesystem state unchanged
and reports the dry events, and a real run — in-place or
copy-to-new-location — reports exactly the same group counts and
chapter names on the same starting state. -/
theorem dryRun_faithful (ipc : Option Nat) (inPlace : Bool) (fail : Path → Bool)
    (fs : FS)
    (hnd : fs.dirs.Nodup)
    (hOM : filesHead fs "Organized_Mihon" = [])
    (htitles : ((discoverCollections fs).map get_safe_folder_name).Nodup) :
    organize_mihon_image_folders ipc true inPlace fail fs = .ok (fs, dryEvents ipc fs) ∧
    (∃ fs2, organize_mihon_image_folders ipc false true noFail fs =
      .ok (fs2, dryEvents ipc fs)) ∧
    (∃ fs3, organize_mihon_image_folders ipc false false noFail fs =
      .ok (fs3, dryEvents ipc fs)) := by
  refine ⟨run_dry ipc inPlace fail fs, ?_, run_copy_spec ipc fs hOM htitles⟩
  obtain ⟨fs2, evs, h1, _, _, hevs⟩ := run_inPlace_spec ipc noFail fs
  exact ⟨fs2, by rw [h1, hevs hnd]⟩

theorem dryRun_faithful_w :
    organize_mihon_image_folders (some 2) true true failOnX fsTwo =
      .ok (fsTwo, dryEvents (some 2) fsTwo) ∧
    (∃ fs2, organize_mihon_image_folders (some 2) false true noFail fsTwo =
      .ok (fs2, dryEvents (some 2) fsTwo)) ∧
    (∃ fs3, organize_mihon_image_folders (some 2) false false noFail fsTwo =
      .ok (fs3, dryEvents (some 2) fsTwo)) :=
  dryRun_faithful (some 2) true failOnX fsTwo (by decide) (by decide) (by decide)

/-! ### C10: the `_Backup` directory asymmetry -/

/-- C10: in copy mode (non-dry-run) the run creates the top-level
`_Backup` directory up front even though no backup content is ever
placed there in that mode (the files under `_Backup` are exactly the
initial ones), while in in-place mode the pre-creation step of lines
150–155 leaves the state untouched. -/
theorem backup_dir_asymmetry (ipc : Option Nat) (fs : FS)
    (hne : discoverCollections fs ≠ [])
    (hnf : fs.files.contains ["_Backup"] = false) :
    preBackupDirStep true false fs = fs ∧ preBackupDirStep true true fs = fs ∧
    ∃ fs' evs, organize_mihon_image_folders ipc false false noFail fs = .ok (fs', evs) ∧
      fs'.dirs.contains ["_Backup"] = true ∧
      filesHead fs' "_Backup" = filesHead fs "_Backup" := by
  refine ⟨by simp [preBackupDirStep], by simp [preBackupDirStep], ?_⟩
  unfold organize_mihon_image_folders
  rw [if_neg (by simpa [List.isEmpty_iff] using hne)]
  obtain ⟨fs', evs, hrun, hpres, hdirs, _⟩ :=
    runCollections_copy_spec ipc (discoverCollections fs) (preBackupDirStep false false fs)
  have hfilesB : (preBackupDirStep false false fs).files = fs.files := by
    unfold preBackupDirStep
    by_cases hb : fs.pathExists ["_Backup"] = true <;> simp [hb, files_mkdirP]
  refine ⟨fs', evs, hrun, ?_, ?_⟩
  · apply hdirs
    unfold preBackupDirStep
    simp only [Bool.not_false, Bool.and_self, if_true]
    by_cases hb : fs.pathExists ["_Backup"] = true
    · rw [if_pos hb]
      unfold FS.pathExists at hb
      rcases Bool.or_eq_true_iff.mp hb with hd | hf
      · exact hd
      · rw [hnf] at hf; cases hf
    · rw [if_neg hb]
      exact contains_iff_mem.mpr
        (mem_addMissing_of_right (mem_dirChain_self (by simp)))
  · rw [hpres "_Backup" (by decide)]
    unfold filesHead
    rw [hfilesB]

theorem backup_dir_asymmetry_w :
    preBackupDirStep true false fsTwo = fsTwo ∧ preBackupDirStep true true fsTwo = fsTwo ∧
    ∃ fs' evs, organize_mihon_image_folders (some 1) false false noFail fsTwo =
        .ok (fs', evs) ∧
      fs'.dirs.contains ["_Backup"] = true ∧
      filesHead fs' "_Backup" = filesHead fsTwo "_Backup" :=
  backup_dir_asymmetry (some 1) fsTwo (by decide) (by decide)


end MihonOrganizer
